import Mathlib

/-
  Verification of the NanoZip (nz1.c) compression core: a shallow embedding of
  the C source into Lean.  Bytes are modelled as `Nat` (with `IsBytes` stating
  every element is `< 256`), machine-integer truncation is made explicit with
  `% 2 ^ 32` / `% 2 ^ 64`, and the hash/chain tables are modelled as total
  functions `Nat → Nat` (the C arrays, zero-initialised by `calloc`).
-/

set_option maxHeartbeats 1000000

namespace NZ

/-- Predicate: the list consists of bytes (values `0..255`), the domain of the
    C `uint8_t` buffers. -/
def IsBytes (l : List Nat) : Prop := ∀ b ∈ l, b < 256

instance (l : List Nat) : Decidable (IsBytes l) := List.decidableBAll _ l

/-- One shift-xor step of `nz_crc32`:
    `crc = (crc >> 1) ^ (CRC32_POLY & -(crc & 1))` in `uint32_t` arithmetic
    (`-(crc & 1)` is `0xFFFFFFFF` when the low bit is set, `0` otherwise). -/
def crc32_step (crc : Nat) : Nat :=
  (crc >>> 1) ^^^ (0xEDB88320 &&& ((2 ^ 32 - (crc &&& 1)) % 2 ^ 32))

/-- Per-byte update of `nz_crc32`: `crc ^= data[i]` then 8 shift-xor steps. -/
def crc32_byte (crc b : Nat) : Nat := crc32_step^[8] (crc ^^^ b)

/-- `nz_crc32`: CRC32, polynomial `0xEDB88320`, initial value all-ones, final
    complement (`~crc` in `uint32_t` is `crc ^^^ 0xFFFFFFFF`). -/
def nz_crc32 (data : List Nat) : Nat :=
  (data.foldl crc32_byte 0xFFFFFFFF) ^^^ 0xFFFFFFFF

/-- Little-endian bytes of a 16-bit value (the `memcpy` of a `uint16_t`). -/
def le2 (n : Nat) : List Nat := [n % 256, n / 256 % 256]

/-- Little-endian bytes of a 32-bit value (the `memcpy` of a `uint32_t`). -/
def le4 (n : Nat) : List Nat :=
  [n % 256, n / 256 % 256, n / 65536 % 256, n / 16777216 % 256]

/-- Little-endian read of a `uint16_t` at byte offset `off` (the decoder's
    `memcpy` out of the header). -/
def read16 (l : List Nat) (off : Nat) : Nat :=
  l.getD off 0 + 256 * l.getD (off + 1) 0

/-- Little-endian read of a `uint32_t` at byte offset `off`. -/
def read32 (l : List Nat) (off : Nat) : Nat :=
  l.getD off 0 + 256 * l.getD (off + 1) 0 + 65536 * l.getD (off + 2) 0 +
    16777216 * l.getD (off + 3) 0

/-- Fuel-indexed scan for the first mismatching byte between `d[a+j..a+W)`
    and `d[b+j..b+W)`; the fuel argument equals `W - j`, so the out-of-fuel
    case coincides with the loop's own exit (`j ≥ W`). -/
def firstDiffGo (d : List Nat) (a b W : Nat) : Nat → Nat → Option Nat
  | 0, _ => none
  | fuel + 1, j =>
    if j < W then
      if d.getD (a + j) 0 = d.getD (b + j) 0 then firstDiffGo d a b W fuel (j + 1)
      else some j
    else none

/-- Index of the first mismatching byte between `d[a..a+W)` and `d[b..b+W)`;
    `none` when the whole block matches.  This is the semantics of
    `VEC_CMP` + `VEC_MOVEMASK` + `ctz(~mask)` in `find_match`: mask bit `i`
    is set iff bytes `i` agree, so `ctz(~mask)` is the least index whose bit
    is clear, and `mask == (1 << SIMD_WIDTH) - 1` iff no such index exists. -/
def firstDiff (d : List Nat) (a b W : Nat) : Option Nat :=
  firstDiffGo d a b W W 0

/-- Fuel-indexed form of the vectorised comparison loop; the fuel bounds the
    remaining length `maxLen - len`, which shrinks by `W ≥ 1` per
    iteration. -/
def vecCmpGo (d : List Nat) (p c maxLen W : Nat) : Nat → Nat → Nat
  | 0, len => len
  | fuel + 1, len =>
    if 0 < W ∧ len + W ≤ maxLen then
      match firstDiff d (p + len) (c + len) W with
      | some j => len + j
      | none => vecCmpGo d p c maxLen W fuel (len + W)
    else len

/-- The vectorised comparison loop of `find_match`
    (`while(len + SIMD_WIDTH <= max_len) ...`), parameterised by the lane
    width `W` (`SIMD_WIDTH` is 32, 16 or 8, always positive; the `0 < W`
    guard only protects totality of the model). -/
def vecCmpLen (d : List Nat) (p c maxLen W len : Nat) : Nat :=
  vecCmpGo d p c maxLen W (maxLen - len) len

/-- Fuel-indexed form of the scalar tail loop; the fuel equals
    `maxLen - len`, so the out-of-fuel case coincides with the loop's own
    exit. -/
def scalarExtGo (d : List Nat) (p c maxLen : Nat) : Nat → Nat → Nat
  | 0, len => len
  | fuel + 1, len =>
    if len < maxLen ∧ d.getD (p + len) 0 = d.getD (c + len) 0 then
      scalarExtGo d p c maxLen fuel (len + 1)
    else len

/-- The scalar tail loop of `find_match`
    (`while(len < max_len && data[pos+len] == data[candidate+len]) len++`). -/
def scalarExt (d : List Nat) (p c maxLen len : Nat) : Nat :=
  scalarExtGo d p c maxLen (maxLen - len) len

/-- The full prefix comparison inside `find_match`: vector loop followed by
    the scalar tail. -/
def match_length (d : List Nat) (p c maxLen W : Nat) : Nat :=
  scalarExt d p c maxLen (vecCmpLen d p c maxLen W 0)

/-- Plain byte-by-byte scalar comparison (the reference semantics the
    vectorised loop must agree with). -/
def matchLenScalar (d : List Nat) (p c maxLen : Nat) : Nat :=
  scalarExt d p c maxLen 0

/-- The rolling hash of `find_match`:
    `hash = (data[pos]<<16) | (data[pos+1]<<8) | data[pos+2];`
    `hash = (hash * 0x9E3779B1) >> (32 - HASH_BITS)` in `uint32_t`. -/
def hash3 (d : List Nat) (p : Nat) : Nat :=
  ((((d.getD p 0) <<< 16 ||| (d.getD (p + 1) 0) <<< 8 ||| d.getD (p + 2) 0) *
      0x9E3779B1) % 2 ^ 32) >>> 18

/-- Pointwise update of a table (a C array store). -/
def upd (f : Nat → Nat) (i v : Nat) : Nat → Nat := fun j => if j = i then v else f j

/-- The candidate-walk loop of `find_match`
    (`for(int i=0; i<MATCH_SEARCH_LIMIT && candidate; i++) ...`), with `fuel`
    counting the remaining iterations (starts at `MATCH_SEARCH_LIMIT = 32`).
    `dist = pos - candidate` is `size_t` subtraction, hence the explicit
    wrap-around `(pos + 2^64 - candidate) % 2^64` (`candidate` is a `uint32_t`
    table value, reduced `% 2^64` for totality of the model). -/
def fmSearch (d : List Nat) (pos endp : Nat) (chain : Nat → Nat) (ws W : Nat) :
    Nat → Nat → Nat → Nat → Nat × Nat
  | 0, _, bl, bc => (bl, bc)
  | fuel + 1, cand, bl, bc =>
    if cand = 0 then (bl, bc)
    else if cand = pos then fmSearch d pos endp chain ws W fuel (chain (cand % ws)) bl bc
    else if (pos + 2 ^ 64 - cand % 2 ^ 64) % 2 ^ 64 > ws then (bl, bc)
    else
      let len := match_length d pos cand (min (endp - pos) 258) W
      if len > bl ∧ 3 ≤ len then
        if 258 ≤ len then (len, cand)
        else fmSearch d pos endp chain ws W fuel (chain (cand % ws)) len cand
      else fmSearch d pos endp chain ws W fuel (chain (cand % ws)) bl bc

/-- `find_match` from `nz1.c`: returns
    `(best_len, best_match_candidate, new head table, new chain table)`.
    `head[hash]` is set to `pos` (a `uint32_t` store, hence `% 2^32`) before
    the walk; `chain[pos % window_size]` receives the previous head value
    after the walk. -/
def find_match (d : List Nat) (pos endp : Nat) (head chain : Nat → Nat)
    (ws W : Nat) : Nat × Nat × (Nat → Nat) × (Nat → Nat) :=
  if pos + 3 > endp then (0, 0, head, chain)
  else
    ((fmSearch d pos endp chain ws W 32 (head (hash3 d pos)) 0 0).1,
     (fmSearch d pos endp chain ws W 32 (head (hash3 d pos)) 0 0).2,
     upd head (hash3 d pos) (pos % 2 ^ 32),
     upd chain (pos % ws) (head (hash3 d pos)))

/-- Window clamping done by `nz_init`: below `MIN_WINDOW = 1024` the request
    becomes `DEFAULT_WINDOW = 65535`; above `MAX_WINDOW = 65535` it becomes
    `65535`. -/
def nz_init_window (w : Nat) : Nat :=
  if w < 1024 then 65535 else if w > 65535 then 65535 else w

/-- Fuel-indexed form of the token-emission loop of `nanozip_compress`; the
    fuel bounds `endp - pos`, which every iteration shrinks (a match advances
    `pos` by `match_len ≥ 3`, a literal by 1), so the out-of-fuel case
    coincides with the loop's own exit (`pos ≥ endp`). -/
def compressGo (d : List Nat) (endp R ws W : Nat) :
    Nat → Nat → Nat → (Nat → Nat) → (Nat → Nat) → List Nat × Nat
  | 0, pos, _, _, _ => ([], pos)
  | fuel + 1, pos, written, head, chain =>
    if pos < endp then
      let fm := find_match d pos endp head chain ws W
      if 3 ≤ fm.1 then
        if R - 4 < written then ([], pos)
        else
          let dist := (pos + 2 ^ 64 - fm.2.1 % 2 ^ 64) % 2 ^ 64 % 2 ^ 32
          let r := compressGo d endp R ws W fuel (pos + fm.1) (written + 4) fm.2.2.1 fm.2.2.2
          (0xC0 :: dist % 256 :: (dist >>> 8) % 256 :: (fm.1 - 3) % 256 :: r.1, r.2)
      else
        if d.getD pos 0 = 0xBF then
          if R - 2 ≤ written then ([], pos)
          else
            let r := compressGo d endp R ws W fuel (pos + 1) (written + 2) fm.2.2.1 fm.2.2.2
            (0xBF :: 0xBF :: r.1, r.2)
        else if 0xC0 ≤ d.getD pos 0 then
          if R - 2 ≤ written then ([], pos)
          else
            let r := compressGo d endp R ws W fuel (pos + 1) (written + 2) fm.2.2.1 fm.2.2.2
            (0xBF :: d.getD pos 0 :: r.1, r.2)
        else
          if R - 1 ≤ written then ([], pos)
          else
            let r := compressGo d endp R ws W fuel (pos + 1) (written + 1) fm.2.2.1 fm.2.2.2
            (d.getD pos 0 :: r.1, r.2)
    else ([], pos)

/-- The token-emission loop of `nanozip_compress`.  `endp` is `in_size`, `R`
    is `out_size`, `written` models `out_ptr - output` (starts at 14), and the
    result is the list of emitted token bytes together with the final input
    position.  `dist = pos - actual_match_pos` is a `size_t` subtraction
    truncated into a `uint32_t`, hence the explicit wrap and `% 2 ^ 32`. -/
def compressLoop (d : List Nat) (endp R ws W : Nat) (pos written : Nat)
    (head chain : Nat → Nat) : List Nat × Nat :=
  compressGo d endp R ws W (endp - pos) pos written head chain

/-- `nanozip_compress` in full: `(return value, bytes written, final pos)`.
    The guard is the C line `if(out_size < in_size + 14) return 0;`.  The
    header is `MAGIC | (uint32_t)in_size | CRC | (uint16_t)window` in
    little-endian byte order; the token stream follows at offset 14. -/
def nz_compress_full (input : List Nat) (R ws0 W : Nat) : Nat × List Nat × Nat :=
  if R < input.length + 14 then (0, [], 0)
  else
    let ws := nz_init_window ws0
    let r := compressLoop input input.length R ws W 0 14 (fun _ => 0) (fun _ => 0)
    (14 + r.1.length,
     le4 0x5A4E5A50 ++ le4 (input.length % 2 ^ 32) ++ le4 (nz_crc32 input) ++
       le2 ws ++ r.1,
     r.2)

/-- Return value of `nanozip_compress` (`SIMD_WIDTH = 8`, the portable
    fallback backend; all widths are proved equivalent). -/
def nanozip_compress (input : List Nat) (R ws0 : Nat) : Nat :=
  (nz_compress_full input R ws0 8).1

/-- The bytes `nanozip_compress` writes into the output buffer. -/
def nz_compress_bytes (input : List Nat) (R ws0 : Nat) : List Nat :=
  (nz_compress_full input R ws0 8).2.1

/-- The input position at which the emission loop of `nanozip_compress`
    stopped (`= input.length` iff no capacity truncation occurred). -/
def nz_compress_finalPos (input : List Nat) (R ws0 : Nat) : Nat :=
  (nz_compress_full input R ws0 8).2.2

/-- The token stream (output after the 14-byte header) of
    `nanozip_compress`. -/
def nz_compress_tokens (input : List Nat) (R ws0 : Nat) : List Nat :=
  (compressLoop input input.length R (nz_init_window ws0) 8 0 14
    (fun _ => 0) (fun _ => 0)).1

/-- Why the decode loop of `nanozip_decompress` stopped. -/
inductive StopReason where
  | inputDone : StopReason
  | outFull : StopReason
  | escTrunc : StopReason
  | matchTrunc : StopReason
  | badLen : StopReason
  | badMatch : StopReason
deriving DecidableEq

/-- The byte-by-byte backward match copy of the decoder
    (`output[out_pos] = output[out_pos - dist]; out_pos++`), on the
    sequentially-written output modelled as a list (`out.length` is
    `out_pos`).  The loop is entered only with `1 ≤ dist ≤ out.length`. -/
def matchCopy (out : List Nat) (dist : Nat) : Nat → List Nat
  | 0 => out
  | n + 1 => matchCopy (out ++ [out.getD (out.length - dist) 0]) dist n

/-- Fuel-indexed token loop of `nanozip_decompress`; the fuel equals
    `inp.length` (`in_remain` in the C code), and every iteration consumes at
    least one input byte, so the out-of-fuel case coincides with the loop's
    own `in_remain == 0` exit.  The input is viewed through `in_ptr`-style
    reads `inp.getD k 0` and advanced with `drop`, exactly mirroring the
    pointer arithmetic of the source. -/
def decodeGo (dsize : Nat) :
    Nat → List Nat → List Nat → List (Nat × Nat × Nat) →
      List Nat × List (Nat × Nat × Nat) × StopReason
  | 0, _, out, tr =>
    if dsize ≤ out.length then (out, tr, .outFull) else (out, tr, .inputDone)
  | fuel + 1, inp, out, tr =>
    if dsize ≤ out.length then (out, tr, .outFull)
    else if inp.length = 0 then (out, tr, .inputDone)
    else if inp.getD 0 0 = 0xBF then
      if inp.length < 2 then (out, tr, .escTrunc)
      else decodeGo dsize fuel (inp.drop 2) (out ++ [inp.getD 1 0]) tr
    else if inp.getD 0 0 = 0xC0 then
      if inp.length < 4 then (out, tr, .matchTrunc)
      else if 258 < inp.getD 3 0 + 3 then (out, tr, .badLen)
      else if inp.getD 1 0 ||| (inp.getD 2 0 <<< 8) = 0 ∨
          out.length < inp.getD 1 0 ||| (inp.getD 2 0 <<< 8) ∨
          dsize < out.length + (inp.getD 3 0 + 3) then
        (out, tr, .badMatch)
      else
        decodeGo dsize fuel (inp.drop 4)
          (matchCopy out (inp.getD 1 0 ||| (inp.getD 2 0 <<< 8)) (inp.getD 3 0 + 3))
          (tr ++ [(inp.getD 1 0 ||| (inp.getD 2 0 <<< 8), inp.getD 3 0 + 3, out.length)])
    else decodeGo dsize fuel (inp.drop 1) (out ++ [inp.getD 0 0]) tr

/-- The token loop of `nanozip_decompress`
    (`while(in_remain > 0 && out_pos < data_size)`), additionally recording
    each applied match token as `(dist, len, out_pos)` and the reason the
    loop stopped.  `dist = in_ptr[1] | (in_ptr[2] << 8)` and
    `len = in_ptr[3] + MIN_MATCH` as in the source. -/
def decodeLoop (dsize : Nat) (inp out : List Nat)
    (tr : List (Nat × Nat × Nat)) : List Nat × List (Nat × Nat × Nat) × StopReason :=
  decodeGo dsize inp.length inp out tr

/-- `nanozip_decompress` in full:
    `(return value, output written, match trace, stop reason)`.  Header
    validation is `in_size >= 14`, magic, `window != 0`,
    `window <= MAX_WINDOW`, `data_size <= out_size`; the final validation is
    `out_pos == data_size` and the CRC32 of the produced bytes (the `||` in C
    short-circuits, so the CRC is only computed at full length). -/
def nz_decompress_full (input : List Nat) (R : Nat) :
    Nat × List Nat × List (Nat × Nat × Nat) × StopReason :=
  if input.length < 14 then (0, [], [], .inputDone)
  else if read32 input 0 ≠ 0x5A4E5A50 then (0, [], [], .inputDone)
  else if read16 input 12 = 0 ∨ 65535 < read16 input 12 ∨ R < read32 input 4 then
    (0, [], [], .inputDone)
  else
    let r := decodeLoop (read32 input 4) (input.drop 14) [] []
    if r.1.length ≠ read32 input 4 ∨ nz_crc32 r.1 ≠ read32 input 8 then
      (0, r.1, r.2.1, r.2.2)
    else (read32 input 4, r.1, r.2.1, r.2.2)

/-- Return value of `nanozip_decompress`. -/
def nanozip_decompress (input : List Nat) (R : Nat) : Nat :=
  (nz_decompress_full input R).1

/-- The bytes `nanozip_decompress` wrote into the output buffer. -/
def nz_decompress_out (input : List Nat) (R : Nat) : List Nat :=
  (nz_decompress_full input R).2.1

/-- The match tokens `(dist, len, out_pos)` applied during a
    `nanozip_decompress` run. -/
def nz_decode_trace (input : List Nat) (R : Nat) : List (Nat × Nat × Nat) :=
  (nz_decompress_full input R).2.2.1

/-- The reason the decode loop stopped. -/
def nz_decode_reason (input : List Nat) (R : Nat) : StopReason :=
  (nz_decompress_full input R).2.2.2

/-- Checked model of the decoder's match copy over an explicit output buffer
    of `Option`-cells (`none` = never written).  A read of an unwritten or
    out-of-range cell, or a write past the end of the buffer, yields `none`
    (the C code would touch memory out of bounds there).  The index
    `opos - dist` is guarded by `dist ≤ opos` at the call site, as in the
    source. -/
def decodeCheckedCopy (dist : Nat) :
    Nat → List (Option Nat) → Nat → List Nat →
      Option (List (Option Nat) × Nat × List Nat)
  | 0, buf, opos, wt => some (buf, opos, wt)
  | n + 1, buf, opos, wt =>
    match buf.getD (opos - dist) none with
    | none => none
    | some v =>
      if opos < buf.length then
        decodeCheckedCopy dist n (buf.set opos (some v)) (opos + 1) (wt ++ [opos])
      else none

/-- Fuel-indexed form of the checked token loop (fuel = `inp.length`, exactly
    as in `decodeGo`): identical control flow to `decodeGo`, but every write
    to the caller's output buffer is bounds-checked and recorded in `wt`, and
    every backward read must hit a previously-written cell.  `none` models an
    out-of-bounds access. -/
def decodeCheckedGo (dsize : Nat) :
    Nat → List Nat → List (Option Nat) → Nat → List Nat →
      Option (List (Option Nat) × Nat × List Nat)
  | 0, _, buf, opos, wt => some (buf, opos, wt)
  | fuel + 1, inp, buf, opos, wt =>
    if dsize ≤ opos then some (buf, opos, wt)
    else if inp.length = 0 then some (buf, opos, wt)
    else if inp.getD 0 0 = 0xBF then
      if inp.length < 2 then some (buf, opos, wt)
      else if opos < buf.length then
        decodeCheckedGo dsize fuel (inp.drop 2)
          (buf.set opos (some (inp.getD 1 0))) (opos + 1) (wt ++ [opos])
      else none
    else if inp.getD 0 0 = 0xC0 then
      if inp.length < 4 then some (buf, opos, wt)
      else if 258 < inp.getD 3 0 + 3 then some (buf, opos, wt)
      else if inp.getD 1 0 ||| (inp.getD 2 0 <<< 8) = 0 ∨
          opos < inp.getD 1 0 ||| (inp.getD 2 0 <<< 8) ∨
          dsize < opos + (inp.getD 3 0 + 3) then
        some (buf, opos, wt)
      else
        match decodeCheckedCopy (inp.getD 1 0 ||| (inp.getD 2 0 <<< 8))
            (inp.getD 3 0 + 3) buf opos wt with
        | none => none
        | some s => decodeCheckedGo dsize fuel (inp.drop 4) s.1 s.2.1 s.2.2
    else
      if opos < buf.length then
        decodeCheckedGo dsize fuel (inp.drop 1)
          (buf.set opos (some (inp.getD 0 0))) (opos + 1) (wt ++ [opos])
      else none

/-- The checked token loop of `nanozip_decompress`. -/
def decodeCheckedLoop (dsize : Nat) (inp : List Nat) (buf : List (Option Nat))
    (opos : Nat) (wt : List Nat) : Option (List (Option Nat) × Nat × List Nat) :=
  decodeCheckedGo dsize inp.length inp buf opos wt

/-- `nanozip_decompress` over the checked buffer model: the caller's output
    buffer has `R` cells, all initially unwritten. -/
def nz_decompress_checked (input : List Nat) (R : Nat) :
    Option (List (Option Nat) × Nat × List Nat) :=
  if input.length < 14 then some (List.replicate R none, 0, [])
  else if read32 input 0 ≠ 0x5A4E5A50 then some (List.replicate R none, 0, [])
  else if read16 input 12 = 0 ∨ 65535 < read16 input 12 ∨ R < read32 input 4 then
    some (List.replicate R none, 0, [])
  else decodeCheckedLoop (read32 input 4) (input.drop 14) (List.replicate R none) 0 []

/-- The output-buffer indices written by the checked decoder run. -/
def checkedWrites (input : List Nat) (R : Nat) : List Nat :=
  match nz_decompress_checked input R with
  | none => []
  | some s => s.2.2

/-- The token-stream grammar of §4.3: direct literals are bytes `< 0xBF`,
    escaped literals are `0xBF x`, matches are the 4-byte `0xC0 d0 d1 l`
    tokens.  A stream in this grammar never contains a bare `0xBF`/`0xC0`
    that is not a token marker. -/
inductive TokStream : List Nat → Prop where
  | nil : TokStream []
  | lit : ∀ b rest, b < 0xBF → TokStream rest → TokStream (b :: rest)
  | esc : ∀ x rest, TokStream rest → TokStream (0xBF :: x :: rest)
  | mtch : ∀ d0 d1 l2 rest, TokStream rest → TokStream (0xC0 :: d0 :: d1 :: l2 :: rest)

/-! ### The scalar comparison loop: one-step unfolding and basic facts -/

lemma scalarExt_stop {d : List Nat} {p c maxLen len : Nat}
    (h : ¬(len < maxLen ∧ d.getD (p + len) 0 = d.getD (c + len) 0)) :
    scalarExt d p c maxLen len = len := by
  unfold scalarExt
  cases h2 : maxLen - len with
  | zero => simp [scalarExtGo]
  | succ n => simp only [scalarExtGo]; rw [if_neg h]

lemma scalarExt_step {d : List Nat} {p c maxLen len : Nat}
    (h : len < maxLen) (he : d.getD (p + len) 0 = d.getD (c + len) 0) :
    scalarExt d p c maxLen len = scalarExt d p c maxLen (len + 1) := by
  unfold scalarExt
  have h2 : maxLen - len = (maxLen - (len + 1)) + 1 := by omega
  rw [h2]
  simp only [scalarExtGo]
  rw [if_pos ⟨h, he⟩]

lemma scalarExt_walk {d : List Nat} {p c maxLen : Nat} :
    ∀ k len, (∀ i, len ≤ i → i < len + k → d.getD (p + i) 0 = d.getD (c + i) 0) →
      len + k ≤ maxLen →
      scalarExt d p c maxLen len = scalarExt d p c maxLen (len + k) := by
  intro k
  induction k with
  | zero => intro len _ _; rfl
  | succ k ih =>
    intro len he hk
    have h1 : len < maxLen := by omega
    have h2 : d.getD (p + len) 0 = d.getD (c + len) 0 := he len le_rfl (by omega)
    rw [scalarExt_step h1 h2]
    have := ih (len + 1) (fun i hi1 hi2 => he i (by omega) (by omega)) (by omega)
    rw [this]
    congr 1
    omega

lemma scalarExt_spec (d : List Nat) (p c maxLen : Nat) :
    ∀ fuel len, maxLen ≤ len + fuel → len ≤ maxLen →
      len ≤ scalarExtGo d p c maxLen fuel len ∧
      scalarExtGo d p c maxLen fuel len ≤ maxLen ∧
      (∀ i, len ≤ i → i < scalarExtGo d p c maxLen fuel len →
        d.getD (p + i) 0 = d.getD (c + i) 0) := by
  intro fuel
  induction fuel with
  | zero =>
    intro len h1 h2
    refine ⟨le_rfl, h2, ?_⟩
    intro i hi1 hi2
    simp only [scalarExtGo] at hi2
    omega
  | succ fuel ih =>
    intro len h1 h2
    by_cases hc : len < maxLen ∧ d.getD (p + len) 0 = d.getD (c + len) 0
    · have hgo : scalarExtGo d p c maxLen (fuel + 1) len =
          scalarExtGo d p c maxLen fuel (len + 1) := by
        simp only [scalarExtGo]
        rw [if_pos hc]
      rw [hgo]
      obtain ⟨ih1, ih2, ih3⟩ := ih (len + 1) (by omega) (by omega)
      refine ⟨by omega, ih2, ?_⟩
      intro i hi1 hi2
      rcases Nat.eq_or_lt_of_le hi1 with rfl | hi
      · exact hc.2
      · exact ih3 i hi hi2
    · have hgo : scalarExtGo d p c maxLen (fuel + 1) len = len := by
        simp only [scalarExtGo]; rw [if_neg hc]
      rw [hgo]
      exact ⟨le_rfl, h2, fun i hi1 hi2 => absurd (lt_of_le_of_lt hi1 hi2) (lt_irrefl len)⟩

/-- Characterisation of the plain byte-by-byte comparison. -/
lemma matchLenScalar_spec (d : List Nat) (p c maxLen : Nat) :
    matchLenScalar d p c maxLen ≤ maxLen ∧
    (∀ i, i < matchLenScalar d p c maxLen → d.getD (p + i) 0 = d.getD (c + i) 0) := by
  unfold matchLenScalar scalarExt
  obtain ⟨h1, h2, h3⟩ := scalarExt_spec d p c maxLen (maxLen - 0) 0 (by omega) (by omega)
  exact ⟨h2, fun i hi => h3 i (Nat.zero_le i) hi⟩

/-! ### The vector block scan -/

lemma firstDiffGo_some {d : List Nat} {a b W : Nat} :
    ∀ fuel j j2, firstDiffGo d a b W fuel j = some j2 →
      j ≤ j2 ∧ j2 < W ∧
      (∀ i, j ≤ i → i < j2 → d.getD (a + i) 0 = d.getD (b + i) 0) ∧
      d.getD (a + j2) 0 ≠ d.getD (b + j2) 0 := by
  intro fuel
  induction fuel with
  | zero => intro j j2 h; simp [firstDiffGo] at h
  | succ fuel ih =>
    intro j j2 h
    simp only [firstDiffGo] at h
    by_cases hj : j < W
    · rw [if_pos hj] at h
      by_cases he : d.getD (a + j) 0 = d.getD (b + j) 0
      · rw [if_pos he] at h
        obtain ⟨h1, h2, h3, h4⟩ := ih (j + 1) j2 h
        refine ⟨by omega, h2, ?_, h4⟩
        intro i hi1 hi2
        rcases Nat.eq_or_lt_of_le hi1 with rfl | hi
        · exact he
        · exact h3 i hi hi2
      · rw [if_neg he] at h
        obtain rfl : j = j2 := by injection h
        exact ⟨le_rfl, hj, fun i hi1 hi2 => absurd (lt_of_le_of_lt hi1 hi2) (lt_irrefl j), he⟩
    · rw [if_neg hj] at h
      exact Option.noConfusion h

lemma firstDiffGo_none {d : List Nat} {a b W : Nat} :
    ∀ fuel j, W ≤ j + fuel → firstDiffGo d a b W fuel j = none →
      ∀ i, j ≤ i → i < W → d.getD (a + i) 0 = d.getD (b + i) 0 := by
  intro fuel
  induction fuel with
  | zero => intro j hf _ i hi1 hi2; omega
  | succ fuel ih =>
    intro j hf h i hi1 hi2
    simp only [firstDiffGo] at h
    have hj : j < W := by omega
    rw [if_pos hj] at h
    by_cases he : d.getD (a + j) 0 = d.getD (b + j) 0
    · rw [if_pos he] at h
      rcases Nat.eq_or_lt_of_le hi1 with rfl | hi
      · exact he
      · exact ih (j + 1) (by omega) h i hi hi2
    · rw [if_neg he] at h
      exact Option.noConfusion h

/-! ### Claim C7 core: every lane width agrees with the scalar comparison -/

lemma vecCmpGo_scalar {d : List Nat} {p c maxLen W : Nat} :
    ∀ fuel len, len ≤ maxLen →
      scalarExt d p c maxLen (vecCmpGo d p c maxLen W fuel len) =
        scalarExt d p c maxLen len := by
  intro fuel
  induction fuel with
  | zero => intro len _; rfl
  | succ fuel ih =>
    intro len hlen
    by_cases hc : 0 < W ∧ len + W ≤ maxLen
    · have hgo : vecCmpGo d p c maxLen W (fuel + 1) len =
          match firstDiff d (p + len) (c + len) W with
          | some j => len + j
          | none => vecCmpGo d p c maxLen W fuel (len + W) := by
        simp only [vecCmpGo]
        rw [if_pos hc]
      rw [hgo]
      cases hfd : firstDiff d (p + len) (c + len) W with
      | some j =>
        obtain ⟨_, hjW, hpre, _⟩ := firstDiffGo_some W 0 j hfd
        have heq : ∀ i, len ≤ i → i < len + j → d.getD (p + i) 0 = d.getD (c + i) 0 := by
          intro i hi1 hi2
          have := hpre (i - len) (Nat.zero_le _) (by omega)
          have ha : p + len + (i - len) = p + i := by omega
          have hb : c + len + (i - len) = c + i := by omega
          rwa [ha, hb] at this
        exact (scalarExt_walk j len heq (by omega)).symm
      | none =>
        have heq : ∀ i, len ≤ i → i < len + W → d.getD (p + i) 0 = d.getD (c + i) 0 := by
          intro i hi1 hi2
          have := firstDiffGo_none W 0 (by omega) hfd (i - len) (Nat.zero_le _) (by omega)
          have ha : p + len + (i - len) = p + i := by omega
          have hb : c + len + (i - len) = c + i := by omega
          rwa [ha, hb] at this
        rw [ih (len + W) (by omega)]
        exact (scalarExt_walk W len heq (by omega)).symm
    · have hgo : vecCmpGo d p c maxLen W (fuel + 1) len = len := by
        simp only [vecCmpGo]; rw [if_neg hc]
      rw [hgo]

/-- Every lane width computes the plain scalar prefix length. -/
lemma match_length_eq_scalar (d : List Nat) (p c maxLen W : Nat) :
    match_length d p c maxLen W = matchLenScalar d p c maxLen := by
  unfold match_length matchLenScalar vecCmpLen
  exact vecCmpGo_scalar (maxLen - 0) 0 (Nat.zero_le maxLen)

lemma scalarExtGo_max {d : List Nat} {p c maxLen : Nat} :
    ∀ fuel len, maxLen ≤ len + fuel →
      scalarExtGo d p c maxLen fuel len < maxLen →
      d.getD (p + scalarExtGo d p c maxLen fuel len) 0 ≠
        d.getD (c + scalarExtGo d p c maxLen fuel len) 0 := by
  intro fuel
  induction fuel with
  | zero =>
    intro len h1 h2
    simp only [scalarExtGo] at h2 ⊢
    omega
  | succ fuel ih =>
    intro len h1 h2
    by_cases hc : len < maxLen ∧ d.getD (p + len) 0 = d.getD (c + len) 0
    · have hgo : scalarExtGo d p c maxLen (fuel + 1) len =
          scalarExtGo d p c maxLen fuel (len + 1) := by
        simp only [scalarExtGo]; rw [if_pos hc]
      rw [hgo] at h2 ⊢
      exact ih (len + 1) (by omega) h2
    · have hgo : scalarExtGo d p c maxLen (fuel + 1) len = len := by
        simp only [scalarExtGo]; rw [if_neg hc]
      rw [hgo] at h2 ⊢
      intro he
      exact hc ⟨h2, he⟩

/-- The scalar comparison stops at the first mismatch (maximality). -/
lemma matchLenScalar_max (d : List Nat) (p c maxLen : Nat)
    (h : matchLenScalar d p c maxLen < maxLen) :
    d.getD (p + matchLenScalar d p c maxLen) 0 ≠
      d.getD (c + matchLenScalar d p c maxLen) 0 := by
  unfold matchLenScalar scalarExt at h ⊢
  exact scalarExtGo_max (maxLen - 0) 0 (by omega) h

/-! ### Width-independence of the search loop and of find_match -/

lemma fmSearch_width (d : List Nat) (pos endp : Nat) (chain : Nat → Nat)
    (ws W W2 : Nat) :
    ∀ fuel cand bl bc,
      fmSearch d pos endp chain ws W fuel cand bl bc =
        fmSearch d pos endp chain ws W2 fuel cand bl bc := by
  intro fuel
  induction fuel with
  | zero => intro cand bl bc; rfl
  | succ fuel ih =>
    intro cand bl bc
    simp only [fmSearch, match_length_eq_scalar]
    by_cases h0 : cand = 0
    · rw [if_pos h0, if_pos h0]
    · rw [if_neg h0, if_neg h0]
      by_cases hp : cand = pos
      · rw [if_pos hp, if_pos hp, ih]
      · rw [if_neg hp, if_neg hp]
        by_cases hd : (pos + 2 ^ 64 - cand % 2 ^ 64) % 2 ^ 64 > ws
        · rw [if_pos hd, if_pos hd]
        · rw [if_neg hd, if_neg hd]
          by_cases hl : matchLenScalar d pos cand (min (endp - pos) 258) > bl ∧
              3 ≤ matchLenScalar d pos cand (min (endp - pos) 258)
          · rw [if_pos hl, if_pos hl]
            by_cases hm : 258 ≤ matchLenScalar d pos cand (min (endp - pos) 258)
            · rw [if_pos hm, if_pos hm]
            · rw [if_neg hm, if_neg hm, ih]
          · rw [if_neg hl, if_neg hl, ih]

/-- `find_match` does not depend on the compiled-in lane width. -/
lemma find_match_width (d : List Nat) (pos endp : Nat) (head chain : Nat → Nat)
    (ws W W2 : Nat) :
    find_match d pos endp head chain ws W = find_match d pos endp head chain ws W2 := by
  unfold find_match
  by_cases h : pos + 3 > endp
  · rw [if_pos h, if_pos h]
  · rw [if_neg h, if_neg h, fmSearch_width d pos endp chain ws W W2]


/-! ### Soundness of find_match: any reported match is a genuine one -/

/-- All values of a hash/chain table are `uint32_t` values. -/
def TableLT (f : Nat → Nat) : Prop := ∀ i, f i < 2 ^ 32

/-- What it means for `find_match` to have found a genuine match of length
    `len` at candidate position `c`. -/
def GoodMatch (d : List Nat) (pos endp ws len c : Nat) : Prop :=
  3 ≤ len ∧ c < pos ∧ 1 ≤ pos - c ∧ pos - c ≤ ws ∧
  len ≤ min (endp - pos) 258 ∧
  ∀ i, i < len → d.getD (pos + i) 0 = d.getD (c + i) 0

lemma fmSearch_good (d : List Nat) (pos endp ws W : Nat) (chain : Nat → Nat)
    (hpos : pos < 2 ^ 32) (hws : ws ≤ 65535) (hchain : TableLT chain) :
    ∀ fuel cand bl bc, cand < 2 ^ 32 →
      (bl = 0 ∨ GoodMatch d pos endp ws bl bc) →
      (fmSearch d pos endp chain ws W fuel cand bl bc).1 = 0 ∨
        GoodMatch d pos endp ws (fmSearch d pos endp chain ws W fuel cand bl bc).1
          (fmSearch d pos endp chain ws W fuel cand bl bc).2 := by
  intro fuel
  induction fuel with
  | zero => intro cand bl bc _ hinv; exact hinv
  | succ fuel ih =>
    intro cand bl bc hcand hinv
    simp only [fmSearch]
    by_cases h0 : cand = 0
    · rw [if_pos h0]; exact hinv
    · rw [if_neg h0]
      by_cases hp : cand = pos
      · rw [if_pos hp]
        exact ih (chain (cand % ws)) bl bc (hchain _) hinv
      · rw [if_neg hp]
        by_cases hd : (pos + 2 ^ 64 - cand % 2 ^ 64) % 2 ^ 64 > ws
        · rw [if_pos hd]; exact hinv
        · rw [if_neg hd]
          have hcp : cand < pos ∧ 1 ≤ pos - cand ∧ pos - cand ≤ ws := by omega
          have hml : match_length d pos cand (min (endp - pos) 258) W =
              matchLenScalar d pos cand (min (endp - pos) 258) :=
            match_length_eq_scalar d pos cand (min (endp - pos) 258) W
          obtain ⟨hle, heq⟩ := matchLenScalar_spec d pos cand (min (endp - pos) 258)
          rw [← hml] at hle heq
          by_cases hl : match_length d pos cand (min (endp - pos) 258) W > bl ∧
              3 ≤ match_length d pos cand (min (endp - pos) 258) W
          · rw [if_pos hl]
            have hgood : GoodMatch d pos endp ws
                (match_length d pos cand (min (endp - pos) 258) W) cand :=
              ⟨hl.2, hcp.1, hcp.2.1, hcp.2.2, hle, heq⟩
            by_cases hm : 258 ≤ match_length d pos cand (min (endp - pos) 258) W
            · rw [if_pos hm]; exact Or.inr hgood
            · rw [if_neg hm]
              exact ih (chain (cand % ws)) _ cand (hchain _) (Or.inr hgood)
          · rw [if_neg hl]
            exact ih (chain (cand % ws)) bl bc (hchain _) hinv

/-- Soundness/framing facts about a `find_match` call: any reported match of
    length ≥ 3 is genuine, and the updated tables still hold `uint32_t`
    values. -/
lemma find_match_spec (d : List Nat) (pos endp : Nat) (head chain : Nat → Nat)
    (ws W : Nat) (hpos : pos < 2 ^ 32) (hws : ws ≤ 65535)
    (hhead : TableLT head) (hchain : TableLT chain) :
    (3 ≤ (find_match d pos endp head chain ws W).1 →
      GoodMatch d pos endp ws (find_match d pos endp head chain ws W).1
        (find_match d pos endp head chain ws W).2.1) ∧
    TableLT (find_match d pos endp head chain ws W).2.2.1 ∧
    TableLT (find_match d pos endp head chain ws W).2.2.2 := by
  unfold find_match
  by_cases h : pos + 3 > endp
  · rw [if_pos h]
    exact ⟨fun h3 => absurd h3 (by omega), hhead, hchain⟩
  · rw [if_neg h]
    dsimp only
    refine ⟨?_, ?_, ?_⟩
    · intro h3
      have hsg := fmSearch_good d pos endp ws W chain hpos hws hchain 32
        (head (hash3 d pos)) 0 0 (hhead _) (Or.inl rfl)
      rcases hsg with h0 | hg
      · omega
      · exact hg
    · intro i
      unfold upd
      by_cases hi : i = hash3 d pos
      · rw [if_pos hi]; omega
      · rw [if_neg hi]; exact hhead i
    · intro i
      unfold upd
      by_cases hi : i = pos % ws
      · rw [if_pos hi]; exact hhead _
      · rw [if_neg hi]; exact hchain i

/-! ### Byte-level utilities: token distance decode, header round-trip -/

/-- Decoding `in_ptr[1] | (in_ptr[2] << 8)` from the two distance bytes the
    encoder emitted recovers the distance (for 16-bit distances). -/
lemma lor_decode (D : Nat) (h : D < 65536) :
    (D % 256) ||| ((D >>> 8 % 256) <<< 8) = D := by
  have h8 : D >>> 8 % 256 = D >>> 8 := by
    rw [Nat.shiftRight_eq_div_pow]; omega
  rw [h8]
  apply Nat.eq_of_testBit_eq
  intro i
  rw [Nat.testBit_or, Nat.testBit_shiftLeft, Nat.testBit_shiftRight]
  have e1 : (256 : Nat) = 2 ^ 8 := rfl
  rw [e1, Nat.testBit_mod_two_pow]
  by_cases hi : 8 ≤ i
  · have e2 : 8 + (i - 8) = i := by omega
    rw [e2]
    simp [hi, Nat.not_lt.mpr hi]
  · have hi2 : i < 8 := by omega
    simp [hi, hi2]

lemma header_length (m s c w : Nat) (t : List Nat) :
    (le4 m ++ le4 s ++ le4 c ++ le2 w ++ t).length = 14 + t.length := by
  simp [le4, le2]
  omega

lemma header_drop_14 (m s c w : Nat) (t : List Nat) :
    (le4 m ++ le4 s ++ le4 c ++ le2 w ++ t).drop 14 = t := by
  show (_ :: _ :: _ :: _ :: _ :: _ :: _ :: _ :: _ :: _ :: _ :: _ :: _ :: _ :: t).drop 14 = t
  rfl

lemma header_read32_0 (m s c w : Nat) (t : List Nat) :
    read32 (le4 m ++ le4 s ++ le4 c ++ le2 w ++ t) 0 = m % 2 ^ 32 := by
  show m % 256 + 256 * (m / 256 % 256) + 65536 * (m / 65536 % 256) +
      16777216 * (m / 16777216 % 256) = m % 2 ^ 32
  omega

lemma header_read32_4 (m s c w : Nat) (t : List Nat) :
    read32 (le4 m ++ le4 s ++ le4 c ++ le2 w ++ t) 4 = s % 2 ^ 32 := by
  show s % 256 + 256 * (s / 256 % 256) + 65536 * (s / 65536 % 256) +
      16777216 * (s / 16777216 % 256) = s % 2 ^ 32
  omega

lemma header_read32_8 (m s c w : Nat) (t : List Nat) :
    read32 (le4 m ++ le4 s ++ le4 c ++ le2 w ++ t) 8 = c % 2 ^ 32 := by
  show c % 256 + 256 * (c / 256 % 256) + 65536 * (c / 65536 % 256) +
      16777216 * (c / 16777216 % 256) = c % 2 ^ 32
  omega

lemma header_read16_12 (m s c w : Nat) (t : List Nat) :
    read16 (le4 m ++ le4 s ++ le4 c ++ le2 w ++ t) 12 = w % 65536 := by
  show w % 256 + 256 * (w / 256 % 256) = w % 65536
  omega

/-! ### The output list during decoding: prefix bookkeeping -/

lemma getD_take (d : List Nat) (p i : Nat) (h : i < p) :
    (d.take p).getD i 0 = d.getD i 0 := by
  by_cases hi : i < d.length
  · rw [List.getD_eq_getElem?_getD, List.getD_eq_getElem?_getD,
      List.getElem?_take_of_lt h]
  · rw [List.getD_eq_getElem?_getD, List.getD_eq_getElem?_getD]
    rw [List.getElem?_eq_none (by simp; omega), List.getElem?_eq_none (by omega)]

lemma take_concat_getD (d : List Nat) (p : Nat) (h : p < d.length) :
    d.take p ++ [d.getD p 0] = d.take (p + 1) := by
  rw [List.take_succ]
  congr 1
  rw [List.getElem?_eq_getElem h]
  simp [List.getD_eq_getElem?_getD, List.getElem?_eq_getElem h]

/-- Replaying a genuine (possibly self-overlapping) match by the decoder's
    byte-at-a-time backward copy extends the decoded prefix. -/
lemma matchCopy_take (d : List Nat) (dist : Nat) :
    ∀ n p, 1 ≤ dist → dist ≤ p → p + n ≤ d.length →
      (∀ i, i < n → d.getD (p + i) 0 = d.getD (p - dist + i) 0) →
      matchCopy (d.take p) dist n = d.take (p + n) := by
  intro n
  induction n with
  | zero => intro p _ _ _ _; simp [matchCopy]
  | succ n ih =>
    intro p h1 h2 h3 h4
    have hp : p < d.length := by omega
    have hlen : (d.take p).length = p := by
      rw [List.length_take]; omega
    have hread : (d.take p).getD ((d.take p).length - dist) 0 = d.getD p 0 := by
      rw [hlen, getD_take d p (p - dist) (by omega)]
      have := h4 0 (by omega)
      simpa using this.symm
    have hstep : matchCopy (d.take p) dist (n + 1) =
        matchCopy (d.take (p + 1)) dist n := by
      show matchCopy (d.take p ++ [(d.take p).getD ((d.take p).length - dist) 0]) dist n =
        matchCopy (d.take (p + 1)) dist n
      rw [hread, take_concat_getD d p hp]
    rw [hstep]
    have hrec := ih (p + 1) h1 (by omega) (by omega) ?_
    · rw [hrec]
      congr 1
      omega
    · intro i hi
      have := h4 (i + 1) (by omega)
      have e1 : p + (i + 1) = p + 1 + i := by omega
      have e2 : p - dist + (i + 1) = p + 1 - dist + i := by omega
      rwa [e1, e2] at this

/-! ### One-step behaviour of the decoder's token loop -/

lemma decodeGo_congr (dsize : Nat) :
    ∀ f1 f2 inp (out : List Nat) (tr : List (Nat × Nat × Nat)),
      inp.length ≤ f1 → inp.length ≤ f2 →
      decodeGo dsize f1 inp out tr = decodeGo dsize f2 inp out tr := by
  have hstop : ∀ f inp (out : List Nat) (tr : List (Nat × Nat × Nat)),
      inp.length = 0 →
      decodeGo dsize f inp out tr =
        if dsize ≤ out.length then (out, tr, .outFull) else (out, tr, .inputDone) := by
    intro f inp out tr h0
    cases f with
    | zero => simp only [decodeGo]
    | succ n =>
      simp only [decodeGo]
      by_cases hf : dsize ≤ out.length
      · rw [if_pos hf, if_pos hf]
      · rw [if_neg hf, if_neg hf, if_pos h0]
  intro f1
  induction f1 with
  | zero =>
    intro f2 inp out tr h1 h2
    have h0 : inp.length = 0 := by omega
    rw [hstop 0 inp out tr h0, hstop f2 inp out tr h0]
  | succ f1 ih =>
    intro f2 inp out tr h1 h2
    cases f2 with
    | zero =>
      have h0 : inp.length = 0 := by omega
      rw [hstop (f1 + 1) inp out tr h0, hstop 0 inp out tr h0]
    | succ f2 =>
      simp only [decodeGo]
      by_cases hf : dsize ≤ out.length
      · rw [if_pos hf, if_pos hf]
      · rw [if_neg hf, if_neg hf]
        by_cases h0 : inp.length = 0
        · rw [if_pos h0, if_pos h0]
        · rw [if_neg h0, if_neg h0]
          by_cases hbf : inp.getD 0 0 = 0xBF
          · rw [if_pos hbf, if_pos hbf]
            by_cases hl2 : inp.length < 2
            · rw [if_pos hl2, if_pos hl2]
            · rw [if_neg hl2, if_neg hl2]
              exact ih f2 _ _ _ (by simp [List.length_drop]; omega)
                (by simp [List.length_drop]; omega)
          · rw [if_neg hbf, if_neg hbf]
            by_cases hc0 : inp.getD 0 0 = 0xC0
            · rw [if_pos hc0, if_pos hc0]
              by_cases hl4 : inp.length < 4
              · rw [if_pos hl4, if_pos hl4]
              · rw [if_neg hl4, if_neg hl4]
                by_cases hbl : 258 < inp.getD 3 0 + 3
                · rw [if_pos hbl, if_pos hbl]
                · rw [if_neg hbl, if_neg hbl]
                  by_cases hbm : inp.getD 1 0 ||| (inp.getD 2 0 <<< 8) = 0 ∨
                      out.length < inp.getD 1 0 ||| (inp.getD 2 0 <<< 8) ∨
                      dsize < out.length + (inp.getD 3 0 + 3)
                  · rw [if_pos hbm, if_pos hbm]
                  · rw [if_neg hbm, if_neg hbm]
                    exact ih f2 _ _ _ (by simp [List.length_drop]; omega)
                      (by simp [List.length_drop]; omega)
            · rw [if_neg hc0, if_neg hc0]
              exact ih f2 _ _ _ (by simp [List.length_drop]; omega)
                (by simp [List.length_drop]; omega)

lemma decodeLoop_nil (dsize : Nat) (out : List Nat) (tr : List (Nat × Nat × Nat)) :
    (decodeLoop dsize [] out tr).1 = out := by
  unfold decodeLoop
  simp only [List.length_nil, decodeGo]
  by_cases h : dsize ≤ out.length
  · rw [if_pos h]
  · rw [if_neg h]

lemma decodeLoop_lit (dsize b : Nat) (rest out : List Nat)
    (tr : List (Nat × Nat × Nat)) (hfull : out.length < dsize)
    (hb1 : b ≠ 0xBF) (hb2 : b ≠ 0xC0) :
    decodeLoop dsize (b :: rest) out tr = decodeLoop dsize rest (out ++ [b]) tr := by
  unfold decodeLoop
  rw [show (b :: rest).length = rest.length + 1 from rfl]
  rw [decodeGo]
  rw [if_neg (by omega)]
  rw [if_neg (show ¬((b :: rest).length = 0) by simp)]
  rw [if_neg (show ¬((b :: rest).getD 0 0 = 0xBF) from hb1)]
  rw [if_neg (show ¬((b :: rest).getD 0 0 = 0xC0) from hb2)]
  rw [show (b :: rest).getD 0 0 = b from rfl, show (b :: rest).drop 1 = rest from rfl]

lemma decodeLoop_esc (dsize x : Nat) (rest out : List Nat)
    (tr : List (Nat × Nat × Nat)) (hfull : out.length < dsize) :
    decodeLoop dsize (0xBF :: x :: rest) out tr =
      decodeLoop dsize rest (out ++ [x]) tr := by
  unfold decodeLoop
  rw [show (0xBF :: x :: rest).length = (rest.length + 1) + 1 from rfl]
  rw [decodeGo]
  rw [if_neg (by omega)]
  rw [if_neg (show ¬(((0xBF : Nat) :: x :: rest).length = 0) by simp)]
  rw [if_pos (show ((0xBF : Nat) :: x :: rest).getD 0 0 = 0xBF from rfl)]
  rw [if_neg (show ¬(((0xBF : Nat) :: x :: rest).length < 2) by
    simp only [List.length_cons]; omega)]
  rw [show ((0xBF : Nat) :: x :: rest).getD 1 0 = x from rfl,
    show ((0xBF : Nat) :: x :: rest).drop 2 = rest from rfl]
  exact decodeGo_congr dsize (rest.length + 1) rest.length rest _ _ (by omega) le_rfl

lemma decodeLoop_mtch (dsize d0 d1 l2 : Nat) (rest out : List Nat)
    (tr : List (Nat × Nat × Nat)) (hfull : out.length < dsize)
    (hlen : ¬258 < l2 + 3)
    (hok : ¬(d0 ||| (d1 <<< 8) = 0 ∨ out.length < d0 ||| (d1 <<< 8) ∨
        dsize < out.length + (l2 + 3))) :
    decodeLoop dsize (0xC0 :: d0 :: d1 :: l2 :: rest) out tr =
      decodeLoop dsize rest (matchCopy out (d0 ||| (d1 <<< 8)) (l2 + 3))
        (tr ++ [(d0 ||| (d1 <<< 8), l2 + 3, out.length)]) := by
  unfold decodeLoop
  rw [show (0xC0 :: d0 :: d1 :: l2 :: rest).length = (rest.length + 3) + 1 by
    simp only [List.length_cons]]
  rw [decodeGo]
  rw [if_neg (by omega)]
  rw [if_neg (show ¬(((0xC0 : Nat) :: d0 :: d1 :: l2 :: rest).length = 0) by simp)]
  rw [if_neg (show ¬(((0xC0 : Nat) :: d0 :: d1 :: l2 :: rest).getD 0 0 = 0xBF) by
    intro hcon
    have hcon2 : (0xC0 : Nat) = 0xBF := hcon
    exact absurd hcon2 (by decide))]
  rw [if_pos (show ((0xC0 : Nat) :: d0 :: d1 :: l2 :: rest).getD 0 0 = 0xC0 from rfl)]
  rw [if_neg (show ¬(((0xC0 : Nat) :: d0 :: d1 :: l2 :: rest).length < 4) by
    simp only [List.length_cons]; omega)]
  rw [show ((0xC0 : Nat) :: d0 :: d1 :: l2 :: rest).getD 1 0 = d0 from rfl,
    show ((0xC0 : Nat) :: d0 :: d1 :: l2 :: rest).getD 2 0 = d1 from rfl,
    show ((0xC0 : Nat) :: d0 :: d1 :: l2 :: rest).getD 3 0 = l2 from rfl]
  rw [if_neg hlen, if_neg hok]
  rw [show ((0xC0 : Nat) :: d0 :: d1 :: l2 :: rest).drop 4 = rest from rfl]
  exact decodeGo_congr dsize (rest.length + 3) rest.length rest _ _ (by omega) le_rfl

/-! ### The emission loop never moves backwards -/

lemma compressGo_pos_le (d : List Nat) (endp R ws W : Nat) :
    ∀ fuel pos written head chain,
      pos ≤ (compressGo d endp R ws W fuel pos written head chain).2 := by
  intro fuel
  induction fuel with
  | zero => intro pos written head chain; exact le_rfl
  | succ fuel ih =>
    intro pos written head chain
    simp only [compressGo]
    by_cases hp : pos < endp
    · rw [if_pos hp]
      by_cases hm : 3 ≤ (find_match d pos endp head chain ws W).1
      · rw [if_pos hm]
        by_cases hc : R - 4 < written
        · rw [if_pos hc]
        · rw [if_neg hc]
          have := ih (pos + (find_match d pos endp head chain ws W).1) (written + 4)
            (find_match d pos endp head chain ws W).2.2.1
            (find_match d pos endp head chain ws W).2.2.2
          dsimp only
          omega
      · rw [if_neg hm]
        by_cases hb1 : d.getD pos 0 = 0xBF
        · rw [if_pos hb1]
          by_cases hc : R - 2 ≤ written
          · rw [if_pos hc]
          · rw [if_neg hc]
            have := ih (pos + 1) (written + 2)
              (find_match d pos endp head chain ws W).2.2.1
              (find_match d pos endp head chain ws W).2.2.2
            dsimp only
            omega
        · rw [if_neg hb1]
          by_cases hb2 : 0xC0 ≤ d.getD pos 0
          · rw [if_pos hb2]
            by_cases hc : R - 2 ≤ written
            · rw [if_pos hc]
            · rw [if_neg hc]
              have := ih (pos + 1) (written + 2)
                (find_match d pos endp head chain ws W).2.2.1
                (find_match d pos endp head chain ws W).2.2.2
              dsimp only
              omega
          · rw [if_neg hb2]
            by_cases hc : R - 1 ≤ written
            · rw [if_pos hc]
            · rw [if_neg hc]
              have := ih (pos + 1) (written + 1)
                (find_match d pos endp head chain ws W).2.2.1
                (find_match d pos endp head chain ws W).2.2.2
              dsimp only
              omega
    · rw [if_neg hp]

lemma IsBytes_getD {d : List Nat} (hB : IsBytes d) {i : Nat} (h : i < d.length) :
    d.getD i 0 < 256 := by
  have he : d.getD i 0 = d[i] := by
    rw [List.getD_eq_getElem?_getD, List.getElem?_eq_getElem h]
    rfl
  rw [he]
  exact hB _ (List.getElem_mem h)

lemma length_take_of_le {d : List Nat} {p : Nat} (h : p ≤ d.length) :
    (d.take p).length = p := by
  rw [List.length_take]
  omega

/-- Core simulation: if the emission loop of the encoder, started at `pos`
    with any search state, consumes the input to the end, then replaying the
    emitted tokens through the decoder's token loop on top of the
    already-decoded prefix `d.take pos` reconstructs `d` exactly. -/
lemma compress_decode_sim (d : List Nat) (R ws W : Nat) (hB : IsBytes d)
    (h32 : d.length < 2 ^ 32) (hws : ws ≤ 65535) :
    ∀ fuel pos written head chain (tr : List (Nat × Nat × Nat)),
      pos ≤ d.length →
      TableLT head → TableLT chain →
      (compressGo d d.length R ws W fuel pos written head chain).2 = d.length →
      (decodeLoop d.length
        ((compressGo d d.length R ws W fuel pos written head chain).1)
        (d.take pos) tr).1 = d := by
  intro fuel
  induction fuel with
  | zero =>
    intro pos written head chain tr hpos _ _ hfp
    simp only [compressGo] at hfp ⊢
    have hpe : pos = d.length := hfp
    subst hpe
    rw [List.take_length]
    exact decodeLoop_nil _ _ _
  | succ fuel ih =>
    intro pos written head chain tr hpos hth htc hfp
    by_cases hp : pos < d.length
    · simp only [compressGo] at hfp ⊢
      rw [if_pos hp] at hfp ⊢
      obtain ⟨hGood, hTH, hTC⟩ := find_match_spec d pos d.length head chain ws W
        (by omega) hws hth htc
      have htklen : (d.take pos).length = pos := length_take_of_le (le_of_lt hp)
      by_cases hm : 3 ≤ (find_match d pos d.length head chain ws W).1
      · rw [if_pos hm] at hfp ⊢
        by_cases hcap : R - 4 < written
        · rw [if_pos hcap] at hfp
          exact absurd hfp (by omega)
        · rw [if_neg hcap] at hfp ⊢
          obtain ⟨hg3, hgc, hg1, hgw, hgmin, hgeq⟩ := hGood hm
          have hD : (pos + 2 ^ 64 -
              (find_match d pos d.length head chain ws W).2.1 % 2 ^ 64) % 2 ^ 64 % 2 ^ 32 =
              pos - (find_match d pos d.length head chain ws W).2.1 := by
            omega
          rw [hD] at hfp ⊢
          have hDlt : pos - (find_match d pos d.length head chain ws W).2.1 < 65536 := by
            omega
          have hlor : (pos - (find_match d pos d.length head chain ws W).2.1) % 256 |||
              (((pos - (find_match d pos d.length head chain ws W).2.1) >>> 8 % 256) <<< 8) =
              pos - (find_match d pos d.length head chain ws W).2.1 :=
            lor_decode _ hDlt
          have hlen3 : ((find_match d pos d.length head chain ws W).1 - 3) % 256 + 3 =
              (find_match d pos d.length head chain ws W).1 := by
            omega
          rw [decodeLoop_mtch _ _ _ _ _ _ _ (by omega)
            (by rw [hlen3]; omega)
            (by
              rw [hlor, hlen3, htklen]
              push_neg
              refine ⟨by omega, by omega, by omega⟩)]
          rw [hlor, hlen3, htklen]
          have hcopy : matchCopy (d.take pos)
              (pos - (find_match d pos d.length head chain ws W).2.1)
              (find_match d pos d.length head chain ws W).1 =
              d.take (pos + (find_match d pos d.length head chain ws W).1) := by
            apply matchCopy_take d _ _ pos (by omega) (by omega) (by omega)
            intro i hi
            have he : pos - (pos - (find_match d pos d.length head chain ws W).2.1) =
                (find_match d pos d.length head chain ws W).2.1 := by omega
            rw [he]
            exact hgeq i hi
          rw [hcopy]
          exact ih (pos + (find_match d pos d.length head chain ws W).1) (written + 4)
            _ _ _ (by omega) hTH hTC hfp
      · rw [if_neg hm] at hfp ⊢
        have hblt : d.getD pos 0 < 256 := IsBytes_getD hB hp
        by_cases hbf : d.getD pos 0 = 0xBF
        · rw [if_pos hbf] at hfp ⊢
          by_cases hcap : R - 2 ≤ written
          · rw [if_pos hcap] at hfp
            exact absurd hfp (by omega)
          · rw [if_neg hcap] at hfp ⊢
            rw [decodeLoop_esc _ _ _ _ _ (by omega)]
            rw [show (0xBF : Nat) = d.getD pos 0 from hbf.symm,
              take_concat_getD d pos hp]
            exact ih (pos + 1) (written + 2) _ _ _ (by omega) hTH hTC hfp
        · rw [if_neg hbf] at hfp ⊢
          by_cases hhi : 0xC0 ≤ d.getD pos 0
          · rw [if_pos hhi] at hfp ⊢
            by_cases hcap : R - 2 ≤ written
            · rw [if_pos hcap] at hfp
              exact absurd hfp (by omega)
            · rw [if_neg hcap] at hfp ⊢
              rw [decodeLoop_esc _ _ _ _ _ (by omega)]
              rw [take_concat_getD d pos hp]
              exact ih (pos + 1) (written + 2) _ _ _ (by omega) hTH hTC hfp
          · rw [if_neg hhi] at hfp ⊢
            by_cases hcap : R - 1 ≤ written
            · rw [if_pos hcap] at hfp
              exact absurd hfp (by omega)
            · rw [if_neg hcap] at hfp ⊢
              rw [decodeLoop_lit _ _ _ _ _ (by omega) hbf (by omega)]
              rw [take_concat_getD d pos hp]
              exact ih (pos + 1) (written + 1) _ _ _ (by omega) hTH hTC hfp
    · simp only [compressGo] at hfp ⊢
      rw [if_neg hp] at hfp ⊢
      have hpe : pos = d.length := hfp
      subst hpe
      rw [List.take_length]
      exact decodeLoop_nil _ _ _

/-! ### Top-level plumbing for the compressor -/

lemma nz_init_window_bounds (w : Nat) :
    1024 ≤ nz_init_window w ∧ nz_init_window w ≤ 65535 := by
  unfold nz_init_window
  by_cases h1 : w < 1024
  · rw [if_pos h1]; omega
  · rw [if_neg h1]
    by_cases h2 : w > 65535
    · rw [if_pos h2]; omega
    · rw [if_neg h2]; omega

lemma crc32_step_lt {x : Nat} (h : x < 2 ^ 32) : crc32_step x < 2 ^ 32 := by
  unfold crc32_step
  have h1 : x >>> 1 < 2 ^ 32 := by
    rw [Nat.shiftRight_eq_div_pow]
    omega
  have h2 : 0xEDB88320 &&& ((2 ^ 32 - (x &&& 1)) % 2 ^ 32) < 2 ^ 32 := by
    have := Nat.and_le_left (n := 0xEDB88320) (m := (2 ^ 32 - (x &&& 1)) % 2 ^ 32)
    omega
  exact Nat.xor_lt_two_pow h1 h2

lemma crc32_byte_lt {x b : Nat} (hx : x < 2 ^ 32) (hb : b < 256) :
    crc32_byte x b < 2 ^ 32 := by
  unfold crc32_byte
  have hxb : x ^^^ b < 2 ^ 32 := Nat.xor_lt_two_pow hx (by omega)
  have hiter : ∀ n y, y < 2 ^ 32 → crc32_step^[n] y < 2 ^ 32 := by
    intro n
    induction n with
    | zero => intro y hy; exact hy
    | succ n ih =>
      intro y hy
      rw [Function.iterate_succ_apply]
      exact ih _ (crc32_step_lt hy)
  exact hiter 8 _ hxb

lemma nz_crc32_lt {l : List Nat} (hB : IsBytes l) : nz_crc32 l < 2 ^ 32 := by
  unfold nz_crc32
  have hfold : ∀ (l2 : List Nat), IsBytes l2 → ∀ x, x < 2 ^ 32 →
      l2.foldl crc32_byte x < 2 ^ 32 := by
    intro l2
    induction l2 with
    | nil => intro _ x hx; exact hx
    | cons b t ih =>
      intro hB2 x hx
      rw [List.foldl_cons]
      exact ih (fun y hy => hB2 y (List.mem_cons_of_mem b hy))
        _ (crc32_byte_lt hx (hB2 b (List.mem_cons_self b t)))
  exact Nat.xor_lt_two_pow (hfold l hB _ (by norm_num)) (by norm_num)

lemma compress_guard_of_ne {input : List Nat} {R ws0 : Nat}
    (hnz : nanozip_compress input R ws0 ≠ 0) : input.length + 14 ≤ R := by
  by_contra hcon
  apply hnz
  unfold nanozip_compress nz_compress_full
  rw [if_pos (by omega)]

lemma nz_compress_bytes_eq {input : List Nat} {R : Nat} (ws0 : Nat)
    (h : input.length + 14 ≤ R) :
    nz_compress_bytes input R ws0 =
      le4 0x5A4E5A50 ++ le4 (input.length % 2 ^ 32) ++ le4 (nz_crc32 input) ++
        le2 (nz_init_window ws0) ++ nz_compress_tokens input R ws0 := by
  unfold nz_compress_bytes nz_compress_full nz_compress_tokens
  rw [if_neg (by omega)]

lemma nz_compress_finalPos_eq {input : List Nat} {R ws0 : Nat}
    (h : input.length + 14 ≤ R) :
    nz_compress_finalPos input R ws0 =
      (compressLoop input input.length R (nz_init_window ws0) 8 0 14
        (fun _ => 0) (fun _ => 0)).2 := by
  unfold nz_compress_finalPos nz_compress_full
  rw [if_neg (by omega)]

lemma nanozip_compress_eq {input : List Nat} {R ws0 : Nat}
    (h : input.length + 14 ≤ R) :
    nanozip_compress input R ws0 = 14 + (nz_compress_tokens input R ws0).length := by
  unfold nanozip_compress nz_compress_full nz_compress_tokens
  rw [if_neg (by omega)]

/-- Round-trip core: a complete (untruncated) compression decodes back to the
    exact input, with the declared size as return value. -/
lemma roundtrip_main (input : List Nat) (R R2 ws0 : Nat) (hB : IsBytes input)
    (h32 : input.length < 2 ^ 32)
    (hnz : nanozip_compress input R ws0 ≠ 0)
    (hfull : nz_compress_finalPos input R ws0 = input.length)
    (hcap : input.length ≤ R2) :
    nanozip_decompress (nz_compress_bytes input R ws0) R2 = input.length ∧
    nz_decompress_out (nz_compress_bytes input R ws0) R2 = input := by
  have hg : input.length + 14 ≤ R := compress_guard_of_ne hnz
  have hws := nz_init_window_bounds ws0
  have hbytes := nz_compress_bytes_eq ws0 hg
  have hfp : (compressLoop input input.length R (nz_init_window ws0) 8 0 14
      (fun _ => 0) (fun _ => 0)).2 = input.length := by
    rw [← nz_compress_finalPos_eq hg]
    exact hfull
  have hsim := compress_decode_sim input R (nz_init_window ws0) 8 hB h32 hws.2
    (input.length - 0) 0 14 (fun _ => 0) (fun _ => 0) []
    (Nat.zero_le _) (fun _ => by norm_num) (fun _ => by norm_num) hfp
  have htoks : nz_compress_tokens input R ws0 =
      (compressLoop input input.length R (nz_init_window ws0) 8 0 14
        (fun _ => 0) (fun _ => 0)).1 := rfl
  have hout : (decodeLoop input.length (nz_compress_tokens input R ws0) [] []).1 =
      input := by
    rw [htoks]
    exact hsim
  have hcrc : nz_crc32 input < 2 ^ 32 := nz_crc32_lt hB
  unfold nanozip_decompress nz_decompress_out nz_decompress_full
  rw [hbytes, header_length, header_read32_0, header_read32_4, header_read32_8,
    header_read16_12, header_drop_14]
  rw [if_neg (by omega)]
  rw [if_neg (by norm_num)]
  have hs32 : input.length % 2 ^ 32 % 2 ^ 32 = input.length := by omega
  rw [hs32]
  rw [if_neg (by push_neg; refine ⟨by omega, by omega, by omega⟩)]
  have hcrc32 : nz_crc32 input % 2 ^ 32 = nz_crc32 input := by omega
  rw [hcrc32]
  dsimp only
  rw [hout]
  rw [if_neg (by push_neg; exact ⟨rfl, rfl⟩)]
  exact ⟨rfl, rfl⟩

lemma le4_mod (n : Nat) : le4 (n % 2 ^ 32) = le4 n := by
  simp only [le4, List.cons.injEq, and_true]
  refine ⟨by omega, by omega, by omega, by omega⟩

lemma nz_compress_bytes_length (input : List Nat) (R ws0 : Nat) :
    (nz_compress_bytes input R ws0).length = nanozip_compress input R ws0 ∨
      nanozip_compress input R ws0 = 0 := by
  by_cases h : R < input.length + 14
  · right
    unfold nanozip_compress nz_compress_full
    rw [if_pos h]
  · left
    rw [nz_compress_bytes_eq ws0 (by omega), nanozip_compress_eq (by omega),
      header_length]

/-- Every emitted token stream (truncated or not) is in the token grammar:
    matches are 4-byte `0xC0 ...` tokens, escapes are `0xBF x`, and direct
    literals are strictly below `0xBF`. -/
lemma compressGo_tokStream (d : List Nat) (endp R ws W : Nat) :
    ∀ fuel pos written head chain,
      TokStream (compressGo d endp R ws W fuel pos written head chain).1 := by
  intro fuel
  induction fuel with
  | zero =>
    intro pos written head chain
    exact TokStream.nil
  | succ fuel ih =>
    intro pos written head chain
    simp only [compressGo]
    by_cases hp : pos < endp
    · rw [if_pos hp]
      by_cases hm : 3 ≤ (find_match d pos endp head chain ws W).1
      · rw [if_pos hm]
        by_cases hcap : R - 4 < written
        · rw [if_pos hcap]; exact TokStream.nil
        · rw [if_neg hcap]
          exact TokStream.mtch _ _ _ _ (ih _ _ _ _)
      · rw [if_neg hm]
        by_cases hbf : d.getD pos 0 = 0xBF
        · rw [if_pos hbf]
          by_cases hcap : R - 2 ≤ written
          · rw [if_pos hcap]; exact TokStream.nil
          · rw [if_neg hcap]
            exact TokStream.esc _ _ (ih _ _ _ _)
        · rw [if_neg hbf]
          by_cases hhi : 0xC0 ≤ d.getD pos 0
          · rw [if_pos hhi]
            by_cases hcap : R - 2 ≤ written
            · rw [if_pos hcap]; exact TokStream.nil
            · rw [if_neg hcap]
              exact TokStream.esc _ _ (ih _ _ _ _)
          · rw [if_neg hhi]
            by_cases hcap : R - 1 ≤ written
            · rw [if_pos hcap]; exact TokStream.nil
            · rw [if_neg hcap]
              exact TokStream.lit _ _ (by omega) (ih _ _ _ _)
    · rw [if_neg hp]
      exact TokStream.nil

/-! ### Claim theorems -/

/-- C1: whenever `nanozip_compress` returns a non-zero length having consumed
    all input positions (no truncation), `nanozip_decompress` on the written
    compressed bytes, with output capacity at least the input length, returns
    exactly the input length and reproduces the input byte-for-byte.  (The
    input is a byte buffer whose length fits the header's 32-bit size
    field.) -/
theorem nz_C1_roundtrip (input : List Nat) (R R2 ws0 : Nat) (hB : IsBytes input)
    (h32 : input.length < 2 ^ 32)
    (hnz : nanozip_compress input R ws0 ≠ 0)
    (hfull : nz_compress_finalPos input R ws0 = input.length)
    (hcap : input.length ≤ R2) :
    (nz_compress_bytes input R ws0).length = nanozip_compress input R ws0 ∧
    nanozip_decompress (nz_compress_bytes input R ws0) R2 = input.length ∧
    nz_decompress_out (nz_compress_bytes input R ws0) R2 = input := by
  obtain ⟨h1, h2⟩ := roundtrip_main input R R2 ws0 hB h32 hnz hfull hcap
  rcases nz_compress_bytes_length input R ws0 with hl | hl
  · exact ⟨hl, h1, h2⟩
  · exact absurd hl hnz

/-- C1 witness. -/
theorem nz_C1_roundtrip_witness :
    (nz_compress_bytes [1, 2, 3] 18 0).length = nanozip_compress [1, 2, 3] 18 0 ∧
    nanozip_decompress (nz_compress_bytes [1, 2, 3] 18 0) 3 = 3 ∧
    nz_decompress_out (nz_compress_bytes [1, 2, 3] 18 0) 3 = [1, 2, 3] :=
  nz_C1_roundtrip [1, 2, 3] 18 3 0 (by decide) (by decide) (by decide) (by decide)
    (by decide)

/-- C4 counterexample: with a 2-byte input and output capacity 14 — enough
    for the 14-byte header — `nanozip_compress` still returns 0, because the
    code's guard is `out_size < in_size + 14`, not a header-only check. -/
theorem nz_C4_counterexample :
    nanozip_compress [0, 0] 14 0 = 0 ∧ ¬(14 < 14) :=
  ⟨by decide, by decide⟩

/-- C4 amended: `nanozip_compress` returns 0 exactly when the output
    capacity is below the input length plus 14; otherwise it returns the
    non-zero count of bytes written (a truncated-but-valid prefix when
    capacity runs out mid-stream). -/
theorem nz_C4_amended (input : List Nat) (R w : Nat) :
    (nanozip_compress input R w = 0 ↔ R < input.length + 14) ∧
    (input.length + 14 ≤ R →
      nanozip_compress input R w = (nz_compress_bytes input R w).length ∧
      nanozip_compress input R w ≠ 0) := by
  constructor
  · constructor
    · intro h0
      by_contra hcon
      rw [nanozip_compress_eq (by omega)] at h0
      omega
    · intro hlt
      unfold nanozip_compress nz_compress_full
      rw [if_pos hlt]
  · intro hge
    rw [nanozip_compress_eq hge, nz_compress_bytes_eq w hge, header_length]
    exact ⟨rfl, by omega⟩

/-- C4 amended witness. -/
theorem nz_C4_amended_witness :
    (nanozip_compress [5] 20 0 = 0 ↔ 20 < 1 + 14) ∧
    nanozip_compress [5] 20 0 = (nz_compress_bytes [5] 20 0).length ∧
    nanozip_compress [5] 20 0 ≠ 0 :=
  ⟨(nz_C4_amended [5] 20 0).1, (nz_C4_amended [5] 20 0).2 (by decide)⟩

/-- C5: the emitted stream after the header is always in the token grammar
    (matches are the 4-byte `0xC0 d_lo d_hi len-3` tokens, escaped literals
    are `0xBF value` pairs used for values `0xBF` and `≥ 0xC0`, direct
    literals are single bytes `< 0xBF`), so it never contains an unescaped
    `0xBF`/`0xC0` that is not a genuine token marker; and any byte input —
    in particular one containing `0xBF` or `0xC0..0xFF` — round-trips
    identically when compression completes without truncation. -/
theorem nz_C5_escape (input : List Nat) (R ws0 R2 : Nat) :
    TokStream ((nz_compress_bytes input R ws0).drop 14) ∧
    (IsBytes input → input.length < 2 ^ 32 → nanozip_compress input R ws0 ≠ 0 →
      nz_compress_finalPos input R ws0 = input.length → input.length ≤ R2 →
      nanozip_decompress (nz_compress_bytes input R ws0) R2 = input.length ∧
      nz_decompress_out (nz_compress_bytes input R ws0) R2 = input) := by
  constructor
  · by_cases h : R < input.length + 14
    · have hb : nz_compress_bytes input R ws0 = [] := by
        unfold nz_compress_bytes nz_compress_full
        rw [if_pos h]
      rw [hb]
      exact TokStream.nil
    · rw [nz_compress_bytes_eq ws0 (by omega), header_drop_14]
      exact compressGo_tokStream input input.length R (nz_init_window ws0) 8 _ 0 14 _ _
  · intro hB h32 hnz hfull hcap
    exact roundtrip_main input R R2 ws0 hB h32 hnz hfull hcap

/-- C5 witness: an input containing `0xBF` and a byte `≥ 0xC0`. -/
theorem nz_C5_escape_witness :
    TokStream ((nz_compress_bytes [0xBF, 0xC5, 1] 22 0).drop 14) ∧
    (nanozip_decompress (nz_compress_bytes [0xBF, 0xC5, 1] 22 0) 3 = 3 ∧
      nz_decompress_out (nz_compress_bytes [0xBF, 0xC5, 1] 22 0) 3 = [0xBF, 0xC5, 1]) :=
  ⟨(nz_C5_escape [0xBF, 0xC5, 1] 22 0 3).1,
   (nz_C5_escape [0xBF, 0xC5, 1] 22 0 3).2 (by decide) (by decide) (by decide)
     (by decide) (by decide)⟩

/-- C7: the vectorised prefix comparison inside `find_match` computes, for
    every candidate and bound, exactly the number of leading equal bytes the
    plain byte-by-byte scalar comparison computes (same result for every
    lane width, with the scalar characterisation: all compared bytes up to
    the result agree, and the result is either the bound or a mismatch
    position); consequently all `find_match` backends are functionally
    identical. -/
theorem nz_C7_vector_equiv (d : List Nat) (p c maxLen W : Nat) :
    match_length d p c maxLen W = matchLenScalar d p c maxLen ∧
    matchLenScalar d p c maxLen ≤ maxLen ∧
    (∀ i, i < matchLenScalar d p c maxLen → d.getD (p + i) 0 = d.getD (c + i) 0) ∧
    (matchLenScalar d p c maxLen < maxLen →
      d.getD (p + matchLenScalar d p c maxLen) 0 ≠
        d.getD (c + matchLenScalar d p c maxLen) 0) ∧
    (∀ pos endp head chain ws W2,
      find_match d pos endp head chain ws W = find_match d pos endp head chain ws W2) := by
  obtain ⟨h1, h2⟩ := matchLenScalar_spec d p c maxLen
  exact ⟨match_length_eq_scalar d p c maxLen W, h1, h2,
    matchLenScalar_max d p c maxLen,
    fun pos endp head chain ws W2 => find_match_width d pos endp head chain ws W W2⟩

/-- C7 witness: a concrete comparison (`[1,2,3,...]` against itself shifted),
    evaluated at lane width 32 (the AVX2 width). -/
theorem nz_C7_vector_equiv_witness :
    match_length [1, 2, 3, 1, 2, 9] 0 3 3 32 = matchLenScalar [1, 2, 3, 1, 2, 9] 0 3 3 ∧
    matchLenScalar [1, 2, 3, 1, 2, 9] 0 3 3 = 2 ∧
    [1, 2, 3, 1, 2, 9].getD (0 + 0) 0 = [1, 2, 3, 1, 2, 9].getD (3 + 0) 0 ∧
    [1, 2, 3, 1, 2, 9].getD (0 + matchLenScalar [1, 2, 3, 1, 2, 9] 0 3 3) 0 ≠
      [1, 2, 3, 1, 2, 9].getD (3 + matchLenScalar [1, 2, 3, 1, 2, 9] 0 3 3) 0 :=
  ⟨(nz_C7_vector_equiv [1, 2, 3, 1, 2, 9] 0 3 3 32).1, by decide,
   (nz_C7_vector_equiv [1, 2, 3, 1, 2, 9] 0 3 3 32).2.2.1 0 (by decide),
   (nz_C7_vector_equiv [1, 2, 3, 1, 2, 9] 0 3 3 32).2.2.2.1 (by decide)⟩

/-- C8: a successful `nanozip_compress` writes the little-endian 14-byte
    header — magic `0x5A4E5A50`, original size, `nz_crc32` of the input
    (polynomial `0xEDB88320`, all-ones initial value, final complement),
    and the clamped window size — with the token stream starting at
    offset 14; requests below 1024 (including 0) and above 65535 are clamped
    to 65535, in-range requests are used as-is. -/
theorem nz_C8_header (input : List Nat) (R ws0 : Nat)
    (hnz : nanozip_compress input R ws0 ≠ 0) :
    nz_compress_bytes input R ws0 =
      le4 0x5A4E5A50 ++ le4 input.length ++ le4 (nz_crc32 input) ++
        le2 (nz_init_window ws0) ++ nz_compress_tokens input R ws0 ∧
    (ws0 < 1024 → nz_init_window ws0 = 65535) ∧
    (65535 < ws0 → nz_init_window ws0 = 65535) ∧
    (1024 ≤ ws0 → ws0 ≤ 65535 → nz_init_window ws0 = ws0) := by
  have hg : input.length + 14 ≤ R := compress_guard_of_ne hnz
  refine ⟨?_, ?_, ?_, ?_⟩
  · rw [nz_compress_bytes_eq ws0 hg, le4_mod]
  · intro h
    unfold nz_init_window
    rw [if_pos h]
  · intro h
    unfold nz_init_window
    rw [if_neg (by omega), if_pos (by omega)]
  · intro h1 h2
    unfold nz_init_window
    rw [if_neg (by omega), if_neg (by omega)]

/-- C8 witness: the header of a concrete compression, window request 0
    clamped to 65535. -/
theorem nz_C8_header_witness :
    nz_compress_bytes [1, 2, 3] 18 0 =
      le4 0x5A4E5A50 ++ le4 3 ++ le4 (nz_crc32 [1, 2, 3]) ++ le2 (nz_init_window 0) ++
        nz_compress_tokens [1, 2, 3] 18 0 ∧
    nz_init_window 0 = 65535 :=
  ⟨((nz_C8_header [1, 2, 3] 18 0 (by decide)).1 : _),
   (nz_C8_header [1, 2, 3] 18 0 (by decide)).2.1 (by decide)⟩

/-- C6: when fewer than 3 bytes remain, `find_match` returns length 0 with
    the tables untouched; otherwise — match found or not — it stores `pos`
    into `head` at the hash of the 3 bytes at `pos`, stores the prior head
    value into `chain[pos mod window_size]`, and modifies no other entry of
    either table. -/
theorem nz_C6_frame (d : List Nat) (pos endp ws W : Nat) (head chain : Nat → Nat)
    (h32 : pos < 2 ^ 32) :
    (endp < pos + 3 →
      find_match d pos endp head chain ws W = (0, 0, head, chain)) ∧
    (pos + 3 ≤ endp →
      (find_match d pos endp head chain ws W).2.2.1 (hash3 d pos) = pos ∧
      (∀ i, i ≠ hash3 d pos →
        (find_match d pos endp head chain ws W).2.2.1 i = head i) ∧
      (find_match d pos endp head chain ws W).2.2.2 (pos % ws) = head (hash3 d pos) ∧
      (∀ i, i ≠ pos % ws →
        (find_match d pos endp head chain ws W).2.2.2 i = chain i)) := by
  constructor
  · intro h
    unfold find_match
    rw [if_pos (by omega)]
  · intro h
    unfold find_match
    rw [if_neg (by omega)]
    dsimp only
    refine ⟨?_, ?_, ?_, ?_⟩
    · unfold upd
      rw [if_pos rfl]
      omega
    · intro i hi
      unfold upd
      rw [if_neg hi]
    · unfold upd
      rw [if_pos rfl]
    · intro i hi
      unfold upd
      rw [if_neg hi]

/-- C6 witness: both branches at concrete states. -/
theorem nz_C6_frame_witness :
    find_match [1, 2] 0 2 (fun _ => 0) (fun _ => 0) 65535 8 =
      (0, 0, fun _ => 0, fun _ => 0) ∧
    (find_match [1, 2, 3] 0 3 (fun _ => 0) (fun _ => 0) 65535 8).2.2.1
      (hash3 [1, 2, 3] 0) = 0 ∧
    (find_match [1, 2, 3] 0 3 (fun _ => 0) (fun _ => 0) 65535 8).2.2.2
      (0 % 65535) = (fun _ => (0 : Nat)) (hash3 [1, 2, 3] 0) :=
  ⟨(nz_C6_frame [1, 2] 0 2 65535 8 (fun _ => 0) (fun _ => 0) (by decide)).1 (by decide),
   ((nz_C6_frame [1, 2, 3] 0 3 65535 8 (fun _ => 0) (fun _ => 0) (by decide)).2
     (by decide)).1,
   ((nz_C6_frame [1, 2, 3] 0 3 65535 8 (fun _ => 0) (fun _ => 0) (by decide)).2
     (by decide)).2.2.1⟩

/-- C9 counterexample: input `[0x00]`, capacity 15.  After the 14-byte
    header exactly 1 byte remains — the exact size of the pending direct
    literal — yet the literal is not emitted: the function stops at input
    position 0 and returns 14. -/
theorem nz_C9_counterexample :
    nanozip_compress [0] 15 0 = 14 ∧ nz_compress_finalPos [0] 15 0 = 0 ∧
      15 - 14 = 1 :=
  ⟨by decide, by decide, by decide⟩

/-- C9 amended: before emitting, the encoder compares `out_ptr - output`
    against the capacity, but with different slack per token kind: a 4-byte
    match is emitted iff at least 4 bytes remain (an exact fit is emitted),
    while a 2-byte escaped literal requires at least 3 remaining bytes and a
    1-byte direct literal at least 2 — a literal whose size exactly equals
    the remaining capacity is NOT emitted; on stopping the function returns
    the bytes written so far. -/
theorem nz_C9_amended (d : List Nat) (R ws W pos w : Nat) (head chain : Nat → Nat)
    (hpos : pos < d.length) (hR : 14 ≤ R) :
    (3 ≤ (find_match d pos d.length head chain ws W).1 →
      ((compressLoop d d.length R ws W pos w head chain).2 = pos ↔ R - w < 4)) ∧
    ((find_match d pos d.length head chain ws W).1 < 3 →
      d.getD pos 0 = 0xBF →
      ((compressLoop d d.length R ws W pos w head chain).2 = pos ↔ R - w < 3)) ∧
    ((find_match d pos d.length head chain ws W).1 < 3 →
      0xC0 ≤ d.getD pos 0 →
      ((compressLoop d d.length R ws W pos w head chain).2 = pos ↔ R - w < 3)) ∧
    ((find_match d pos d.length head chain ws W).1 < 3 →
      d.getD pos 0 < 0xBF →
      ((compressLoop d d.length R ws W pos w head chain).2 = pos ↔ R - w < 2)) := by
  unfold compressLoop
  rw [show d.length - pos = (d.length - pos - 1) + 1 by omega]
  simp only [compressGo]
  rw [if_pos hpos]
  refine ⟨?_, ?_, ?_, ?_⟩
  · intro hm
    rw [if_pos hm]
    by_cases hcap : R - 4 < w
    · rw [if_pos hcap]
      exact iff_of_true rfl (by omega)
    · rw [if_neg hcap]
      have hple := compressGo_pos_le d d.length R ws W (d.length - pos - 1)
        (pos + (find_match d pos d.length head chain ws W).1) (w + 4)
        (find_match d pos d.length head chain ws W).2.2.1
        (find_match d pos d.length head chain ws W).2.2.2
      exact iff_of_false (by dsimp only; omega) (by omega)
  · intro hm hbf
    rw [if_neg (by omega), if_pos hbf]
    by_cases hcap : R - 2 ≤ w
    · rw [if_pos hcap]
      exact iff_of_true rfl (by omega)
    · rw [if_neg hcap]
      have hple := compressGo_pos_le d d.length R ws W (d.length - pos - 1)
        (pos + 1) (w + 2)
        (find_match d pos d.length head chain ws W).2.2.1
        (find_match d pos d.length head chain ws W).2.2.2
      exact iff_of_false (by dsimp only; omega) (by omega)
  · intro hm hhi
    rw [if_neg (by omega), if_neg (by omega), if_pos hhi]
    by_cases hcap : R - 2 ≤ w
    · rw [if_pos hcap]
      exact iff_of_true rfl (by omega)
    · rw [if_neg hcap]
      have hple := compressGo_pos_le d d.length R ws W (d.length - pos - 1)
        (pos + 1) (w + 2)
        (find_match d pos d.length head chain ws W).2.2.1
        (find_match d pos d.length head chain ws W).2.2.2
      exact iff_of_false (by dsimp only; omega) (by omega)
  · intro hm hlo
    rw [if_neg (by omega), if_neg (by omega), if_neg (by omega)]
    by_cases hcap : R - 1 ≤ w
    · rw [if_pos hcap]
      exact iff_of_true rfl (by omega)
    · rw [if_neg hcap]
      have hple := compressGo_pos_le d d.length R ws W (d.length - pos - 1)
        (pos + 1) (w + 1)
        (find_match d pos d.length head chain ws W).2.2.1
        (find_match d pos d.length head chain ws W).2.2.2
      exact iff_of_false (by dsimp only; omega) (by omega)

/-- C9 amended witness: all four token kinds at concrete states (the match
    case with remaining capacity 3 < 4, the escaped-literal cases with
    remaining capacity 2 < 3, the direct-literal case with remaining
    capacity 1 < 2: all stop). -/
theorem nz_C9_amended_witness :
    (compressLoop [0, 7, 8, 9, 7, 8, 9] 7 20 65535 8 4 17
      (fun i => if i = hash3 [0, 7, 8, 9, 7, 8, 9] 4 then 1 else 0) (fun _ => 0)).2 = 4 ∧
    (compressLoop [0xBF] 1 16 65535 8 0 14 (fun _ => 0) (fun _ => 0)).2 = 0 ∧
    (compressLoop [0xC5] 1 16 65535 8 0 14 (fun _ => 0) (fun _ => 0)).2 = 0 ∧
    (compressLoop [5] 1 15 65535 8 0 14 (fun _ => 0) (fun _ => 0)).2 = 0 :=
  ⟨((nz_C9_amended [0, 7, 8, 9, 7, 8, 9] 20 65535 8 4 17
      (fun i => if i = hash3 [0, 7, 8, 9, 7, 8, 9] 4 then 1 else 0) (fun _ => 0)
      (by decide) (by decide)).1 (by decide)).mpr (by decide),
   ((nz_C9_amended [0xBF] 16 65535 8 0 14 (fun _ => 0) (fun _ => 0)
      (by decide) (by decide)).2.1 (by decide) (by decide)).mpr (by decide),
   ((nz_C9_amended [0xC5] 16 65535 8 0 14 (fun _ => 0) (fun _ => 0)
      (by decide) (by decide)).2.2.1 (by decide) (by decide)).mpr (by decide),
   ((nz_C9_amended [5] 15 65535 8 0 14 (fun _ => 0) (fun _ => 0)
      (by decide) (by decide)).2.2.2 (by decide) (by decide)).mpr (by decide)⟩

/-! ### Stop-reason and trace facts about the decode loop -/

lemma decodeGo_break_out_lt (dsize : Nat) :
    ∀ fuel inp out tr,
      ((decodeGo dsize fuel inp out tr).2.2 = .escTrunc ∨
       (decodeGo dsize fuel inp out tr).2.2 = .matchTrunc ∨
       (decodeGo dsize fuel inp out tr).2.2 = .badLen ∨
       (decodeGo dsize fuel inp out tr).2.2 = .badMatch) →
      (decodeGo dsize fuel inp out tr).1.length < dsize := by
  intro fuel
  induction fuel with
  | zero =>
    intro inp out tr h
    simp only [decodeGo] at h ⊢
    by_cases hf : dsize ≤ out.length
    · rw [if_pos hf] at h
      rcases h with h | h | h | h <;> simp at h
    · rw [if_neg hf] at h
      rcases h with h | h | h | h <;> simp at h
  | succ fuel ih =>
    intro inp out tr h
    simp only [decodeGo] at h ⊢
    by_cases hf : dsize ≤ out.length
    · rw [if_pos hf] at h
      rcases h with h | h | h | h <;> simp at h
    · rw [if_neg hf] at h ⊢
      by_cases h0 : inp.length = 0
      · rw [if_pos h0] at h
        rcases h with h | h | h | h <;> simp at h
      · rw [if_neg h0] at h ⊢
        by_cases hbf : inp.getD 0 0 = 0xBF
        · rw [if_pos hbf] at h ⊢
          by_cases hl2 : inp.length < 2
          · rw [if_pos hl2] at h ⊢
            dsimp only
            omega
          · rw [if_neg hl2] at h ⊢
            exact ih _ _ _ h
        · rw [if_neg hbf] at h ⊢
          by_cases hc0 : inp.getD 0 0 = 0xC0
          · rw [if_pos hc0] at h ⊢
            by_cases hl4 : inp.length < 4
            · rw [if_pos hl4] at h ⊢
              dsimp only
              omega
            · rw [if_neg hl4] at h ⊢
              by_cases hbl : 258 < inp.getD 3 0 + 3
              · rw [if_pos hbl] at h ⊢
                dsimp only
                omega
              · rw [if_neg hbl] at h ⊢
                by_cases hbm : inp.getD 1 0 ||| (inp.getD 2 0 <<< 8) = 0 ∨
                    out.length < inp.getD 1 0 ||| (inp.getD 2 0 <<< 8) ∨
                    dsize < out.length + (inp.getD 3 0 + 3)
                · rw [if_pos hbm] at h ⊢
                  dsimp only
                  omega
                · rw [if_neg hbm] at h ⊢
                  exact ih _ _ _ h
          · rw [if_neg hc0] at h ⊢
            exact ih _ _ _ h

lemma decodeGo_trace_bounds (dsize : Nat) :
    ∀ fuel inp out tr,
      (∀ t ∈ tr, 3 ≤ t.2.1 ∧ t.2.1 ≤ 258 ∧ 1 ≤ t.1 ∧ t.1 ≤ t.2.2) →
      ∀ t ∈ (decodeGo dsize fuel inp out tr).2.1,
        3 ≤ t.2.1 ∧ t.2.1 ≤ 258 ∧ 1 ≤ t.1 ∧ t.1 ≤ t.2.2 := by
  intro fuel
  induction fuel with
  | zero =>
    intro inp out tr htr
    simp only [decodeGo]
    by_cases hf : dsize ≤ out.length
    · rw [if_pos hf]; exact htr
    · rw [if_neg hf]; exact htr
  | succ fuel ih =>
    intro inp out tr htr
    simp only [decodeGo]
    by_cases hf : dsize ≤ out.length
    · rw [if_pos hf]; exact htr
    · rw [if_neg hf]
      by_cases h0 : inp.length = 0
      · rw [if_pos h0]; exact htr
      · rw [if_neg h0]
        by_cases hbf : inp.getD 0 0 = 0xBF
        · rw [if_pos hbf]
          by_cases hl2 : inp.length < 2
          · rw [if_pos hl2]; exact htr
          · rw [if_neg hl2]; exact ih _ _ _ htr
        · rw [if_neg hbf]
          by_cases hc0 : inp.getD 0 0 = 0xC0
          · rw [if_pos hc0]
            by_cases hl4 : inp.length < 4
            · rw [if_pos hl4]; exact htr
            · rw [if_neg hl4]
              by_cases hbl : 258 < inp.getD 3 0 + 3
              · rw [if_pos hbl]; exact htr
              · rw [if_neg hbl]
                by_cases hbm : inp.getD 1 0 ||| (inp.getD 2 0 <<< 8) = 0 ∨
                    out.length < inp.getD 1 0 ||| (inp.getD 2 0 <<< 8) ∨
                    dsize < out.length + (inp.getD 3 0 + 3)
                · rw [if_pos hbm]; exact htr
                · rw [if_neg hbm]
                  apply ih
                  intro t ht
                  rcases List.mem_append.mp ht with ht | ht
                  · exact htr t ht
                  · push_neg at hbm
                    rcases List.mem_singleton.mp ht with rfl
                    dsimp only
                    exact ⟨by omega, by omega, by omega, by omega⟩
          · rw [if_neg hc0]; exact ih _ _ _ htr

lemma decodeLoop_break_out_lt (dsize : Nat) (inp out : List Nat)
    (tr : List (Nat × Nat × Nat))
    (h : (decodeLoop dsize inp out tr).2.2 = .escTrunc ∨
      (decodeLoop dsize inp out tr).2.2 = .matchTrunc ∨
      (decodeLoop dsize inp out tr).2.2 = .badLen ∨
      (decodeLoop dsize inp out tr).2.2 = .badMatch) :
    (decodeLoop dsize inp out tr).1.length < dsize := by
  unfold decodeLoop at h ⊢
  exact decodeGo_break_out_lt dsize inp.length inp out tr h

/-- Any mid-stream break of the token loop (truncated escape, truncated
    match, impossible length, rejected match) makes `nanozip_decompress`
    return 0. -/
lemma decompress_break_zero (input : List Nat) (R : Nat)
    (hr : nz_decode_reason input R = .escTrunc ∨
      nz_decode_reason input R = .matchTrunc ∨
      nz_decode_reason input R = .badLen ∨
      nz_decode_reason input R = .badMatch) :
    nanozip_decompress input R = 0 := by
  unfold nz_decode_reason nz_decompress_full at hr
  unfold nanozip_decompress nz_decompress_full
  by_cases h1 : input.length < 14
  · rw [if_pos h1]
  · rw [if_neg h1] at hr ⊢
    by_cases h2 : read32 input 0 ≠ 0x5A4E5A50
    · rw [if_pos h2]
    · rw [if_neg h2] at hr ⊢
      by_cases h3 : read16 input 12 = 0 ∨ 65535 < read16 input 12 ∨ R < read32 input 4
      · rw [if_pos h3]
      · rw [if_neg h3] at hr ⊢
        dsimp only at hr ⊢
        by_cases h4 : (decodeLoop (read32 input 4) (input.drop 14) [] []).1.length ≠
            read32 input 4 ∨
            nz_crc32 (decodeLoop (read32 input 4) (input.drop 14) [] []).1 ≠
              read32 input 8
        · rw [if_pos h4]
        · exfalso
          rw [if_neg h4] at hr
          dsimp only at hr
          push_neg at h4
          have hlt := decodeLoop_break_out_lt (read32 input 4) (input.drop 14) [] [] hr
          omega

/-- C2: the decoder's failure conditions each force a zero return, and every
    non-zero return equals the header's declared original size. -/
theorem nz_C2_decompress_errors (input : List Nat) (R : Nat) :
    (input.length < 14 → nanozip_decompress input R = 0) ∧
    (read32 input 0 ≠ 0x5A4E5A50 → nanozip_decompress input R = 0) ∧
    (read16 input 12 = 0 ∨ 65535 < read16 input 12 → nanozip_decompress input R = 0) ∧
    (R < read32 input 4 → nanozip_decompress input R = 0) ∧
    (nz_decode_reason input R = .escTrunc ∨ nz_decode_reason input R = .matchTrunc →
      nanozip_decompress input R = 0) ∧
    ((nz_decompress_out input R).length ≠ read32 input 4 →
      nanozip_decompress input R = 0) ∧
    (nz_crc32 (nz_decompress_out input R) ≠ read32 input 8 →
      nanozip_decompress input R = 0) ∧
    (nanozip_decompress input R ≠ 0 → nanozip_decompress input R = read32 input 4) := by
  refine ⟨?_, ?_, ?_, ?_, ?_, ?_, ?_, ?_⟩
  · intro h
    unfold nanozip_decompress nz_decompress_full
    rw [if_pos h]
  · intro h
    unfold nanozip_decompress nz_decompress_full
    by_cases h1 : input.length < 14
    · rw [if_pos h1]
    · rw [if_neg h1, if_pos h]
  · intro h
    unfold nanozip_decompress nz_decompress_full
    by_cases h1 : input.length < 14
    · rw [if_pos h1]
    · rw [if_neg h1]
      by_cases h2 : read32 input 0 ≠ 0x5A4E5A50
      · rw [if_pos h2]
      · rw [if_neg h2, if_pos (by tauto)]
  · intro h
    unfold nanozip_decompress nz_decompress_full
    by_cases h1 : input.length < 14
    · rw [if_pos h1]
    · rw [if_neg h1]
      by_cases h2 : read32 input 0 ≠ 0x5A4E5A50
      · rw [if_pos h2]
      · rw [if_neg h2, if_pos (by tauto)]
  · intro h
    apply decompress_break_zero
    tauto
  · intro h
    unfold nz_decompress_out nz_decompress_full at h
    unfold nanozip_decompress nz_decompress_full
    by_cases h1 : input.length < 14
    · rw [if_pos h1]
    · rw [if_neg h1] at h ⊢
      by_cases h2 : read32 input 0 ≠ 0x5A4E5A50
      · rw [if_pos h2]
      · rw [if_neg h2] at h ⊢
        by_cases h3 : read16 input 12 = 0 ∨ 65535 < read16 input 12 ∨
            R < read32 input 4
        · rw [if_pos h3]
        · rw [if_neg h3] at h ⊢
          dsimp only at h ⊢
          by_cases h4 : (decodeLoop (read32 input 4) (input.drop 14) [] []).1.length ≠
              read32 input 4 ∨
              nz_crc32 (decodeLoop (read32 input 4) (input.drop 14) [] []).1 ≠
                read32 input 8
          · rw [if_pos h4]
          · rw [if_neg h4] at h
            push_neg at h4
            exact absurd h4.1 h
  · intro h
    unfold nz_decompress_out nz_decompress_full at h
    unfold nanozip_decompress nz_decompress_full
    by_cases h1 : input.length < 14
    · rw [if_pos h1]
    · rw [if_neg h1] at h ⊢
      by_cases h2 : read32 input 0 ≠ 0x5A4E5A50
      · rw [if_pos h2]
      · rw [if_neg h2] at h ⊢
        by_cases h3 : read16 input 12 = 0 ∨ 65535 < read16 input 12 ∨
            R < read32 input 4
        · rw [if_pos h3]
        · rw [if_neg h3] at h ⊢
          dsimp only at h ⊢
          by_cases h4 : (decodeLoop (read32 input 4) (input.drop 14) [] []).1.length ≠
              read32 input 4 ∨
              nz_crc32 (decodeLoop (read32 input 4) (input.drop 14) [] []).1 ≠
                read32 input 8
          · rw [if_pos h4]
          · rw [if_neg h4] at h
            push_neg at h4
            exact absurd h4.2 h
  · intro h
    unfold nanozip_decompress nz_decompress_full at h ⊢
    by_cases h1 : input.length < 14
    · rw [if_pos h1] at h
      exact absurd rfl h
    · rw [if_neg h1] at h ⊢
      by_cases h2 : read32 input 0 ≠ 0x5A4E5A50
      · rw [if_pos h2] at h
        exact absurd rfl h
      · rw [if_neg h2] at h ⊢
        by_cases h3 : read16 input 12 = 0 ∨ 65535 < read16 input 12 ∨
            R < read32 input 4
        · rw [if_pos h3] at h
          exact absurd rfl h
        · rw [if_neg h3] at h ⊢
          dsimp only at h ⊢
          by_cases h4 : (decodeLoop (read32 input 4) (input.drop 14) [] []).1.length ≠
              read32 input 4 ∨
              nz_crc32 (decodeLoop (read32 input 4) (input.drop 14) [] []).1 ≠
                read32 input 8
          · rw [if_pos h4] at h
            exact absurd rfl h
          · rw [if_neg h4]

/-- C2 witness: each failure condition at a concrete stream — short input,
    bad magic, zero window, capacity below declared size, truncated escape
    token, produced-size mismatch, CRC mismatch — and a valid stream whose
    non-zero return equals the declared size. -/
theorem nz_C2_decompress_errors_witness :
    nanozip_decompress [] 0 = 0 ∧
    nanozip_decompress [0, 0, 0, 0, 0, 0, 0, 0, 0, 0, 0, 0, 0, 0] 0 = 0 ∧
    nanozip_decompress [80, 90, 78, 90, 0, 0, 0, 0, 0, 0, 0, 0, 0, 0] 0 = 0 ∧
    nanozip_decompress [80, 90, 78, 90, 5, 0, 0, 0, 0, 0, 0, 0, 1, 0] 0 = 0 ∧
    nanozip_decompress [80, 90, 78, 90, 1, 0, 0, 0, 0, 0, 0, 0, 1, 0, 0xBF] 1 = 0 ∧
    nanozip_decompress [80, 90, 78, 90, 2, 0, 0, 0, 0, 0, 0, 0, 1, 0, 65] 2 = 0 ∧
    nanozip_decompress [80, 90, 78, 90, 1, 0, 0, 0, 0, 0, 0, 0, 1, 0, 65] 1 = 0 ∧
    nanozip_decompress [80, 90, 78, 90, 1, 0, 0, 0, 139, 158, 217, 211, 1, 0, 65] 1 =
      read32 [80, 90, 78, 90, 1, 0, 0, 0, 139, 158, 217, 211, 1, 0, 65] 4 :=
  ⟨(nz_C2_decompress_errors [] 0).1 (by decide),
   (nz_C2_decompress_errors [0, 0, 0, 0, 0, 0, 0, 0, 0, 0, 0, 0, 0, 0] 0).2.1 (by decide),
   (nz_C2_decompress_errors [80, 90, 78, 90, 0, 0, 0, 0, 0, 0, 0, 0, 0, 0] 0).2.2.1
     (Or.inl (by decide)),
   (nz_C2_decompress_errors [80, 90, 78, 90, 5, 0, 0, 0, 0, 0, 0, 0, 1, 0] 0).2.2.2.1
     (by decide),
   (nz_C2_decompress_errors [80, 90, 78, 90, 1, 0, 0, 0, 0, 0, 0, 0, 1, 0, 0xBF] 1).2.2.2.2.1
     (Or.inl (by decide)),
   (nz_C2_decompress_errors [80, 90, 78, 90, 2, 0, 0, 0, 0, 0, 0, 0, 1, 0, 65] 2).2.2.2.2.2.1
     (by decide),
   (nz_C2_decompress_errors [80, 90, 78, 90, 1, 0, 0, 0, 0, 0, 0, 0, 1, 0, 65] 1).2.2.2.2.2.2.1
     (by decide),
   (nz_C2_decompress_errors [80, 90, 78, 90, 1, 0, 0, 0, 139, 158, 217, 211, 1, 0, 65]
     1).2.2.2.2.2.2.2 (by decide)⟩

lemma decodeLoop_trace_bounds (dsize : Nat) (inp out : List Nat)
    (tr : List (Nat × Nat × Nat))
    (htr : ∀ t ∈ tr, 3 ≤ t.2.1 ∧ t.2.1 ≤ 258 ∧ 1 ≤ t.1 ∧ t.1 ≤ t.2.2) :
    ∀ t ∈ (decodeLoop dsize inp out tr).2.1,
      3 ≤ t.2.1 ∧ t.2.1 ≤ 258 ∧ 1 ≤ t.1 ∧ t.1 ≤ t.2.2 := by
  unfold decodeLoop
  exact decodeGo_trace_bounds dsize inp.length inp out tr htr

/-- A compressed stream whose header declares window size 1 but whose match
    token uses distance 2: the decoder accepts it (the window size is never
    checked against the distance). -/
def nz_c3_stream : List Nat :=
  [80, 90, 78, 90, 5, 0, 0, 0, 148, 111, 52, 215, 1, 0, 97, 98, 192, 2, 0, 0]

/-- C3 counterexample: the decode succeeds (returns 5 ≠ 0) although the
    applied match token `(dist, len, out_pos) = (2, 3, 2)` has distance
    2 > min(out_pos, window_size) = min 2 1 = 1: the decoder never bounds
    the distance by the header's window size. -/
theorem nz_C3_counterexample :
    nanozip_decompress nz_c3_stream 5 ≠ 0 ∧
    (2, 3, 2) ∈ nz_decode_trace nz_c3_stream 5 ∧
    read16 nz_c3_stream 12 = 1 ∧
    ¬((2 : Nat) ≤ min 2 (read16 nz_c3_stream 12)) :=
  ⟨by decide, by decide, by decide, by decide⟩

/-- C3 amended: every match token applied during decoding has length in
    `[3, 258]` and distance in `[1, current output position]` (the window
    size is NOT enforced by the decoder), and a match token violating the
    checked bounds (impossible length, zero distance, distance beyond the
    output position, copy overrunning the declared size) makes the decode
    fail with return value 0. -/
theorem nz_C3_amended (input : List Nat) (R : Nat) :
    (∀ t ∈ nz_decode_trace input R,
      3 ≤ t.2.1 ∧ t.2.1 ≤ 258 ∧ 1 ≤ t.1 ∧ t.1 ≤ t.2.2) ∧
    ((nz_decode_reason input R = .badLen ∨ nz_decode_reason input R = .badMatch) →
      nanozip_decompress input R = 0) := by
  constructor
  · unfold nz_decode_trace nz_decompress_full
    by_cases h1 : input.length < 14
    · rw [if_pos h1]
      intro t ht
      exact absurd ht (List.not_mem_nil t)
    · rw [if_neg h1]
      by_cases h2 : read32 input 0 ≠ 0x5A4E5A50
      · rw [if_pos h2]
        intro t ht
        exact absurd ht (List.not_mem_nil t)
      · rw [if_neg h2]
        by_cases h3 : read16 input 12 = 0 ∨ 65535 < read16 input 12 ∨
            R < read32 input 4
        · rw [if_pos h3]
          intro t ht
          exact absurd ht (List.not_mem_nil t)
        · rw [if_neg h3]
          dsimp only
          by_cases h4 : (decodeLoop (read32 input 4) (input.drop 14) [] []).1.length ≠
              read32 input 4 ∨
              nz_crc32 (decodeLoop (read32 input 4) (input.drop 14) [] []).1 ≠
                read32 input 8
          · rw [if_pos h4]
            exact decodeLoop_trace_bounds _ _ _ _
              (fun t ht => absurd ht (List.not_mem_nil t))
          · rw [if_neg h4]
            exact decodeLoop_trace_bounds _ _ _ _
              (fun t ht => absurd ht (List.not_mem_nil t))
  · intro h
    apply decompress_break_zero
    tauto

/-- C3 amended witness: the bounds at the applied match of a successful
    decode, and a zero return on a zero-distance match token. -/
theorem nz_C3_amended_witness :
    (3 ≤ ((2 : Nat), (3 : Nat), (2 : Nat)).2.1 ∧
      ((2 : Nat), (3 : Nat), (2 : Nat)).2.1 ≤ 258 ∧
      1 ≤ ((2 : Nat), (3 : Nat), (2 : Nat)).1 ∧
      ((2 : Nat), (3 : Nat), (2 : Nat)).1 ≤ ((2 : Nat), (3 : Nat), (2 : Nat)).2.2) ∧
    nanozip_decompress [80, 90, 78, 90, 1, 0, 0, 0, 0, 0, 0, 0, 1, 0, 192, 0, 0, 0] 1 = 0 :=
  ⟨(nz_C3_amended nz_c3_stream 5).1 (2, 3, 2) (by decide),
   (nz_C3_amended [80, 90, 78, 90, 1, 0, 0, 0, 0, 0, 0, 0, 1, 0, 192, 0, 0, 0] 1).2
     (Or.inr (by decide))⟩

/-! ### C10: memory safety of the decoder over the checked buffer model -/

lemma getD_set_self {l : List (Option Nat)} {i : Nat} {v : Option Nat}
    (h : i < l.length) : (l.set i v).getD i none = v := by
  rw [List.getD_eq_getElem?_getD, List.getElem?_set_self h]
  rfl

lemma getD_set_other {l : List (Option Nat)} {i j : Nat} {v : Option Nat}
    (h : i ≠ j) : (l.set i v).getD j none = l.getD j none := by
  rw [List.getD_eq_getElem?_getD, List.getD_eq_getElem?_getD, List.getElem?_set_ne h]

lemma decodeCheckedCopy_ok (dist dsize : Nat) :
    ∀ len (buf : List (Option Nat)) opos wt,
      (∀ j, j < opos → (buf.getD j none).isSome = true) →
      1 ≤ dist → dist ≤ opos → opos + len ≤ dsize → dsize ≤ buf.length →
      (∀ i ∈ wt, i < dsize) →
      ∃ s, decodeCheckedCopy dist len buf opos wt = some s ∧
        s.1.length = buf.length ∧ s.2.1 = opos + len ∧
        (∀ j, j < opos + len → (s.1.getD j none).isSome = true) ∧
        (∀ i ∈ s.2.2, i < dsize) := by
  intro len
  induction len with
  | zero =>
    intro buf opos wt hinv h1 h2 h3 h4 hwt
    refine ⟨(buf, opos, wt), rfl, rfl, by dsimp only; omega, ?_, hwt⟩
    intro j hj
    exact hinv j (by omega)
  | succ len ih =>
    intro buf opos wt hinv h1 h2 h3 h4 hwt
    have hread : (buf.getD (opos - dist) none).isSome = true :=
      hinv (opos - dist) (by omega)
    obtain ⟨v, hv⟩ := Option.isSome_iff_exists.mp hread
    have hop : opos < buf.length := by omega
    have hstep : decodeCheckedCopy dist (len + 1) buf opos wt =
        decodeCheckedCopy dist len (buf.set opos (some v)) (opos + 1) (wt ++ [opos]) := by
      simp only [decodeCheckedCopy, hv]
      rw [if_pos hop]
    rw [hstep]
    obtain ⟨s, hs, hl, ho, hi, hw⟩ := ih (buf.set opos (some v)) (opos + 1) (wt ++ [opos])
      (by
        intro j hj
        by_cases hje : j = opos
        · subst hje
          rw [getD_set_self hop]
          rfl
        · rw [getD_set_other (fun he => hje he.symm)]
          exact hinv j (by omega))
      h1 (by omega) (by omega) (by rw [List.length_set]; omega)
      (by
        intro i hi2
        rcases List.mem_append.mp hi2 with hi2 | hi2
        · exact hwt i hi2
        · rcases List.mem_singleton.mp hi2 with rfl
          omega)
    refine ⟨s, hs, ?_, by omega, ?_, hw⟩
    · rw [hl, List.length_set]
    · intro j hj
      exact hi j (by omega)

lemma decodeCheckedGo_ok (dsize : Nat) :
    ∀ fuel inp (buf : List (Option Nat)) opos wt,
      (∀ j, j < opos → (buf.getD j none).isSome = true) →
      opos ≤ dsize → dsize ≤ buf.length →
      (∀ i ∈ wt, i < dsize) →
      ∃ s, decodeCheckedGo dsize fuel inp buf opos wt = some s ∧
        (∀ i ∈ s.2.2, i < dsize) := by
  intro fuel
  induction fuel with
  | zero =>
    intro inp buf opos wt hinv hod hdb hwt
    exact ⟨(buf, opos, wt), rfl, hwt⟩
  | succ fuel ih =>
    intro inp buf opos wt hinv hod hdb hwt
    simp only [decodeCheckedGo]
    by_cases hf : dsize ≤ opos
    · rw [if_pos hf]
      exact ⟨(buf, opos, wt), rfl, hwt⟩
    · rw [if_neg hf]
      by_cases h0 : inp.length = 0
      · rw [if_pos h0]
        exact ⟨(buf, opos, wt), rfl, hwt⟩
      · rw [if_neg h0]
        have hob : opos < buf.length := by omega
        by_cases hbf : inp.getD 0 0 = 0xBF
        · rw [if_pos hbf]
          by_cases hl2 : inp.length < 2
          · rw [if_pos hl2]
            exact ⟨(buf, opos, wt), rfl, hwt⟩
          · rw [if_neg hl2, if_pos hob]
            apply ih
            · intro j hj
              by_cases hje : j = opos
              · subst hje
                rw [getD_set_self hob]
                rfl
              · rw [getD_set_other (fun he => hje he.symm)]
                exact hinv j (by omega)
            · omega
            · rw [List.length_set]
              omega
            · intro i hi2
              rcases List.mem_append.mp hi2 with hi2 | hi2
              · exact hwt i hi2
              · rcases List.mem_singleton.mp hi2 with rfl
                omega
        · rw [if_neg hbf]
          by_cases hc0 : inp.getD 0 0 = 0xC0
          · rw [if_pos hc0]
            by_cases hl4 : inp.length < 4
            · rw [if_pos hl4]
              exact ⟨(buf, opos, wt), rfl, hwt⟩
            · rw [if_neg hl4]
              by_cases hbl : 258 < inp.getD 3 0 + 3
              · rw [if_pos hbl]
                exact ⟨(buf, opos, wt), rfl, hwt⟩
              · rw [if_neg hbl]
                by_cases hbm : inp.getD 1 0 ||| (inp.getD 2 0 <<< 8) = 0 ∨
                    opos < inp.getD 1 0 ||| (inp.getD 2 0 <<< 8) ∨
                    dsize < opos + (inp.getD 3 0 + 3)
                · rw [if_pos hbm]
                  exact ⟨(buf, opos, wt), rfl, hwt⟩
                · rw [if_neg hbm]
                  push_neg at hbm
                  obtain ⟨s, hs, hl, ho, hi, hw⟩ :=
                    decodeCheckedCopy_ok (inp.getD 1 0 ||| (inp.getD 2 0 <<< 8)) dsize
                      (inp.getD 3 0 + 3) buf opos wt hinv (by omega) (by omega)
                      (by omega) hdb hwt
                  rw [hs]
                  apply ih
                  · intro j hj
                    exact hi j (by omega)
                  · omega
                  · omega
                  · exact hw
          · rw [if_neg hc0, if_pos hob]
            apply ih
            · intro j hj
              by_cases hje : j = opos
              · subst hje
                rw [getD_set_self hob]
                rfl
              · rw [getD_set_other (fun he => hje he.symm)]
                exact hinv j (by omega)
            · omega
            · rw [List.length_set]
              omega
            · intro i hi2
              rcases List.mem_append.mp hi2 with hi2 | hi2
              · exact hwt i hi2
              · rcases List.mem_singleton.mp hi2 with rfl
                omega

/-- C10: once header validation passes, the decoder's token loop never
    touches the caller's output buffer out of bounds: over the checked
    buffer model (each cell `Option`-tracked, every write bounds-checked,
    every backward read required to hit an already-written cell, with
    `out_pos - dist` guarded by `1 ≤ dist ≤ out_pos`), no input — valid or
    corrupted — produces an out-of-bounds access, and every recorded write
    index is strictly below the header's declared original size. -/
theorem nz_C10_memory_safety (input : List Nat) (R : Nat) :
    nz_decompress_checked input R ≠ none ∧
    ∀ i ∈ checkedWrites input R, i < read32 input 4 := by
  unfold checkedWrites nz_decompress_checked
  by_cases h1 : input.length < 14
  · rw [if_pos h1]
    refine ⟨by simp, ?_⟩
    dsimp only
    intro i hi
    exact absurd hi (List.not_mem_nil i)
  · rw [if_neg h1]
    by_cases h2 : read32 input 0 ≠ 0x5A4E5A50
    · rw [if_pos h2]
      refine ⟨by simp, ?_⟩
      dsimp only
      intro i hi
      exact absurd hi (List.not_mem_nil i)
    · rw [if_neg h2]
      by_cases h3 : read16 input 12 = 0 ∨ 65535 < read16 input 12 ∨
          R < read32 input 4
      · rw [if_pos h3]
        refine ⟨by simp, ?_⟩
        dsimp only
        intro i hi
        exact absurd hi (List.not_mem_nil i)
      · rw [if_neg h3]
        push_neg at h3
        obtain ⟨s, hs, hw⟩ := decodeCheckedGo_ok (read32 input 4)
          (input.drop 14).length (input.drop 14) (List.replicate R none) 0 []
          (fun j hj => absurd hj (Nat.not_lt_zero j))
          (Nat.zero_le _)
          (by rw [List.length_replicate]; omega)
          (fun i hi => absurd hi (List.not_mem_nil i))
        unfold decodeCheckedLoop
        rw [hs]
        refine ⟨by simp, ?_⟩
        dsimp only
        exact hw

/-- C10 witness: the checked decoder on a concrete valid stream. -/
theorem nz_C10_memory_safety_witness :
    nz_decompress_checked
      [80, 90, 78, 90, 5, 0, 0, 0, 148, 111, 52, 215, 1, 0, 97, 98, 192, 2, 0, 0] 5 ≠
      none ∧
    ∀ i ∈ checkedWrites
      [80, 90, 78, 90, 5, 0, 0, 0, 148, 111, 52, 215, 1, 0, 97, 98, 192, 2, 0, 0] 5,
      i < read32 [80, 90, 78, 90, 5, 0, 0, 0, 148, 111, 52, 215, 1, 0, 97, 98, 192, 2, 0, 0] 4 :=
  nz_C10_memory_safety
    [80, 90, 78, 90, 5, 0, 0, 0, 148, 111, 52, 215, 1, 0, 97, 98, 192, 2, 0, 0] 5

end NZ
